import Mathlib

/-!
Verification development for the pdxdoc static documentation-site builder.

The Rust sources are embedded shallowly: hash maps become association
lists (lookup by first matching key, insert replaces the first binding),
`Vec` becomes `List`, `u64`/`usize` ids become `Nat`, fallible code
returns `Option`/`Except`, and in-place mutation becomes explicit state
passing.  Definitions keep the source's names where Lean allows it.
-/

namespace Pdxdoc

/-- Association-list lookup; the embedding of `HashMap::get` (first
binding with the given key wins; maps built by `alistInsert`/`alistUpsert`
keep keys unique). -/
def alistGet {K V : Type} [DecidableEq K] : List (K × V) → K → Option V
  | [], _ => none
  | (k, v) :: rest, key => if k = key then some v else alistGet rest key

/-- Association-list insert; the embedding of `HashMap::insert` (replaces
the binding if the key is present, otherwise appends). -/
def alistInsert {K V : Type} [DecidableEq K] : List (K × V) → K → V → List (K × V)
  | [], k, v => [(k, v)]
  | (k', v') :: rest, k, v =>
    if k' = k then (k, v) :: rest else (k', v') :: alistInsert rest k v

/-- Association-list in-place value update; the embedding of
`HashMap::get_mut` followed by a mutation of the value (no effect when the
key is absent). -/
def alistModify {K V : Type} [DecidableEq K] (key : K) (f : V → V) :
    List (K × V) → List (K × V)
  | [] => []
  | (k, v) :: rest =>
    if k = key then (k, f v) :: rest else (k, v) :: alistModify key f rest

/-- Association-list update-or-insert; the embedding of
`HashMap::entry(key).or_insert_with(dflt)` followed by applying `f` to the
value. -/
def alistUpsert {K V : Type} [DecidableEq K] (key : K) (dflt : V) (f : V → V) :
    List (K × V) → List (K × V)
  | [] => [(key, f dflt)]
  | (k, v) :: rest =>
    if k = key then (k, f v) :: rest else (k, v) :: alistUpsert key dflt f rest

/-- Lexicographic (code-point) comparison of character lists; the
embedding of the byte-lexicographic `Ord` on Rust strings (UTF-8 byte
order and code-point order agree). -/
def charsLe : List Char → List Char → Bool
  | [], _ => true
  | _ :: _, [] => false
  | a :: as, b :: bs =>
    if a < b then true else if a = b then charsLe as bs else false

/-- Lexicographic order on strings (via `charsLe`). -/
def strLe (a b : String) : Bool :=
  charsLe a.data b.data

/-- Embedding of `str::starts_with` on the prefix's characters. -/
def charsIsPrefix : List Char → List Char → Bool
  | [], _ => true
  | _ :: _, [] => false
  | a :: as, b :: bs => a = b && charsIsPrefix as bs

/-- Embedding of `str::starts_with`. -/
def strStartsWith (s pre : String) : Bool :=
  charsIsPrefix pre.data s.data

/-- Split a character list at a separator (the embedding of
`String::splitOn` for a one-character separator). -/
def splitChars (sep : Char) : List Char → List (List Char)
  | [] => [[]]
  | c :: rest =>
    let r := splitChars sep rest
    if c = sep then [] :: r
    else
      match r with
      | [] => [[c]]
      | h :: t => (c :: h) :: t

/-- Character-level worker for `humanizeCamelCase` (the boolean is the
`make_upper` flag of the Rust loop). -/
def humanizeChars : Bool → List Char → List Char
  | _, [] => []
  | true, c :: cs => c.toUpper :: humanizeChars false cs
  | false, c :: cs =>
    if c = '_' then ' ' :: humanizeChars true cs else c :: humanizeChars false cs

/-- Embedding of `util::humanize_camel_case` (src/src/util/mod.rs):
uppercases the first letter and the letter after each underscore, turning
underscores into spaces.  (`char::to_uppercase` is modelled by
`Char.toUpper`; the doc identifiers involved are ASCII.) -/
def humanizeCamelCase (text : String) : String :=
  ⟨humanizeChars true text.data⟩

/-- Embedding of `config::PaginationMode` as matched by the cited
`util::paginate` (src/src/util/mod.rs lines 44-53): the `None` and
`Absolute` modes.  (The configuration file of a later revision also has an
`Alphabetic` variant; no claim concerns it and the cited `paginate` does
not match it.) -/
inductive PaginationMode where
  | none : PaginationMode
  | absolute (limit : Nat) : PaginationMode
deriving DecidableEq, Repr

/-- Embedding of `slice::chunks(n)`: splits the list into consecutive
chunks of length `n`, the last possibly shorter.  Rust panics when
`n = 0`; that unreachable branch (all callers pass a positive limit)
returns `[]` here. -/
def chunksEvery {α : Type} : Nat → List α → List (List α)
  | _, [] => []
  | 0, _ :: _ => []
  | n + 1, x :: xs =>
    ((x :: xs).take (n + 1)) :: chunksEvery (n + 1) ((x :: xs).drop (n + 1))
termination_by n l => l.length
decreasing_by
  simp only [List.drop, List.length_drop, List.length_cons]
  omega

/-- Embedding of `util::paginate` (src/src/util/mod.rs lines 44-53):
`None` yields one page from the whole slice, `Absolute { limit }` maps the
page constructor over the `limit`-sized chunks. -/
def paginate {α P : Type} (mode : PaginationMode) (iter : List α)
    (to_page : List α → P) : List P :=
  match mode with
  | .none => [to_page iter]
  | .absolute limit => (chunksEvery limit iter).map to_page

/-- Modelled from the spec: the chunk list of the threshold-aware
`paginate` variant — `paginate(mode, minimum_threshold, items, make_page)`
— whose definition is missing from src/ (src/src/page.rs line 531 calls
it; src/src/util/mod.rs holds only a stale version without the
threshold).  Below the minimum threshold pagination is suppressed and a
single page holds all items; otherwise `None` yields a single page and
`Absolute { limit }` yields the `limit`-sized chunks. -/
def paginateChunks {α : Type} (mode : PaginationMode) (minimum : Nat)
    (items : List α) : List (List α) :=
  if items.length < minimum then [items]
  else
    match mode with
    | .none => [items]
    | .absolute limit => chunksEvery limit items

/-- Modelled from the spec: the threshold-aware
`paginate(mode, minimum_threshold, items, make_page)` variant missing from
src/ (called at src/src/page.rs line 531).  The callback receives the
computed total page count together with each chunk and is invoked once per
chunk, in chunk order. -/
def paginateMin {α P : Type} (mode : PaginationMode) (minimum : Nat)
    (items : List α) (to_page : Nat → List α → P) : List P :=
  if items.length < minimum then [to_page 1 items]
  else
    match mode with
    | .none => [to_page 1 items]
    | .absolute limit =>
      (chunksEvery limit items).map (to_page (chunksEvery limit items).length)

/-- Embedding of the `DocStringSegment` shapes produced by the dossier
code (part of the external `clauser` crate): plain text and hyperlinks.
The derived order mirrors the derived `Ord` used by `Vec::sort` in
`collate_references`: variant tag first, then `contents` (the link display
text), then `url`. -/
inductive DocStringSegment where
  | text (contents : String) : DocStringSegment
  | link (contents : String) (url : String) : DocStringSegment
deriving DecidableEq, Repr

/-- Variant tag of a segment, for the derived order. -/
def DocStringSegment.tag : DocStringSegment → Nat
  | .text _ => 0
  | .link _ _ => 1

/-- Display contents of a segment (for a link, its display text). -/
def DocStringSegment.contents : DocStringSegment → String
  | .text c => c
  | .link c _ => c

/-- URL of a segment (empty for plain text). -/
def DocStringSegment.url : DocStringSegment → String
  | .text _ => ""
  | .link _ u => u

/-- Display text of a link segment, `none` for plain text. -/
def DocStringSegment.linkText : DocStringSegment → Option String
  | .text _ => none
  | .link c _ => some c

/-- Derived lexicographic order on segments: variant tag, then contents,
then url (the order `items.sort()` uses in `collate_references`). -/
def segLE (a b : DocStringSegment) : Prop :=
  a.tag < b.tag ∨
    (a.tag = b.tag ∧
      (a.contents < b.contents ∨ (a.contents = b.contents ∧ a.url ≤ b.url)))

instance : DecidableRel segLE := fun a b => by
  unfold segLE; infer_instance

/-- Embedding of `dossier::CrossReference`: a directed edge recording
that property `from_property` of entry `from_id` points at entry `to_id`. -/
structure CrossReference where
  from_id : Nat
  from_property : String
  to_id : Nat
deriving DecidableEq, Repr

/-- Embedding of `dossier::DocCategory`. -/
structure DocCategory where
  id : Nat
  name : String
  display_name : String
  entries : List Nat
deriving DecidableEq, Repr

/-- Interface-level embedding of a registered `dyn DocEntry`: its id,
category id, name, and the cross-references it records when added (the
Rust trait method `record_cross_references` pushes, for each content
field, an edge from this entry to a target id computed from the string
table; the resulting `(property name, target id)` pairs are carried here
as data). -/
structure EntryRec where
  id : Nat
  category_id : Nat
  name : String
  crossRefs : List (String × Nat)
deriving DecidableEq, Repr

/-- Embedding of `dossier::Dossier` (the fields the claims exercise:
categories by id, entries by id, the cross-reference list, and the
configured pagination mode; the string table, scope list and version info
carry no weight in any claim). -/
structure Dossier where
  categories : List (Nat × DocCategory)
  entries : List (Nat × EntryRec)
  cross_references : List CrossReference
  pagination : PaginationMode
deriving DecidableEq, Repr

/-- Embedding of `page::PageContext` at the interface the dossier uses:
`url_for_entry from to` resolves a URL through the site mapper. -/
structure PageContext where
  url_for_entry : Nat → Nat → String

/-- Embedding of `Dossier::link_for_entry` (src/src/dossier.rs lines
548-567): a link segment through the mapper when the target id is
registered, otherwise (after a logged warning, not modelled) a plain-text
segment with the raw name. -/
def link_for_entry (d : Dossier) (context : PageContext) (from_ : EntryRec)
    (name : String) (id : Nat) : DocStringSegment :=
  match alistGet d.entries id with
  | some entry => .link name (context.url_for_entry from_.id entry.id)
  | none => .text name

/-- Nested grouping structure built by `collate_references`:
group display name, then humanized property name, then the pushed link
segments. -/
abbrev RefGroups := List (String × List (String × List DocStringSegment))

/-- One step of `Dossier::add_ref_link` (src/src/dossier.rs lines
502-524) without the map mutation: resolves the source entry and its
category (the Rust `unwrap`s become `Option`) and produces the
(group name, property name, rendered link) triple to push. -/
def refLinkTriple (d : Dossier) (context : PageContext) (entry : EntryRec)
    (other_id : Nat) (prop : String) :
    Option (String × String × DocStringSegment) :=
  match alistGet d.entries other_id with
  | none => none
  | some other =>
    match alistGet d.categories other.category_id with
    | none => none
    | some cat =>
      some (cat.display_name, humanizeCamelCase prop,
        link_for_entry d context entry other.name other.id)

/-- The triple one cross-reference edge contributes (its source id and
property name fed to `refLinkTriple`). -/
def tripleOf (d : Dossier) (context : PageContext) (entry : EntryRec)
    (cr : CrossReference) : Option (String × String × DocStringSegment) :=
  refLinkTriple d context entry cr.from_id cr.from_property

/-- The map mutation of `Dossier::add_ref_link`: push the link at the end
of the bucket of (group name, property name), creating the group and the
bucket on first use. -/
def groupsPush (groups : RefGroups) (g p : String) (s : DocStringSegment) :
    RefGroups :=
  alistUpsert g [] (fun inner => alistUpsert p [] (fun items => items ++ [s]) inner)
    groups

/-- Embedding of `Dossier::add_ref_link` (src/src/dossier.rs lines
502-524); `none` models the panicking `unwrap` on an unregistered source
entry or category. -/
def add_ref_link (d : Dossier) (context : PageContext) (groups : RefGroups)
    (entry : EntryRec) (other_id : Nat) (prop : String) : Option RefGroups :=
  (refLinkTriple d context entry other_id prop).map
    (fun t => groupsPush groups t.1 t.2.1 t.2.2)

/-- Embedding of `dossier::CrossReferenceSection`; `body` is the
`DocString` built by `DocString::new_from_iter(items, Some(", "))`,
modelled as the item list with text separators interspersed. -/
structure CrossReferenceSection where
  name : String
  body : List DocStringSegment
deriving DecidableEq, Repr

/-- Embedding of `dossier::CrossReferenceGroup`. -/
structure CrossReferenceGroup where
  name : String
  properties : List CrossReferenceSection
deriving DecidableEq, Repr

/-- Embedding of `dossier::CollatedCrossReferences`. -/
structure CollatedCrossReferences where
  groups : List CrossReferenceGroup
deriving DecidableEq, Repr

/-- Lexicographic string sort used for group and property names
(`Vec::sort` on `Vec<String>`). -/
def sortStrings (l : List String) : List String :=
  l.insertionSort (· ≤ ·)

/-- Segment sort used for the link lists (`items.sort()`). -/
def sortSegs (l : List DocStringSegment) : List DocStringSegment :=
  l.insertionSort segLE

/-- Group names of the grouping structure. -/
def groupKeys (groups : RefGroups) : List String :=
  groups.map Prod.fst

/-- Inner (property → links) map of one group. -/
def innerOf (groups : RefGroups) (g : String) :
    List (String × List DocStringSegment) :=
  (alistGet groups g).getD []

/-- Property names of one group. -/
def propKeys (groups : RefGroups) (g : String) : List String :=
  (innerOf groups g).map Prod.fst

/-- Link bucket of one (group, property) pair. -/
def bucketOf (groups : RefGroups) (g p : String) : List DocStringSegment :=
  (alistGet (innerOf groups g) p).getD []

/-- The sorting-and-assembly phase of `Dossier::collate_references`
(src/src/dossier.rs lines 473-499): sort the group names, inside each
group sort the property names, inside each property sort the links, and
join each sorted link list with text separators (`", "`). -/
def assembleCollated (groups : RefGroups) : CollatedCrossReferences :=
  { groups :=
      (sortStrings (groupKeys groups)).map (fun g =>
        { name := g
          properties :=
            (sortStrings (propKeys groups g)).map (fun p =>
              { name := p
                body := List.intersperse (DocStringSegment.text ", ")
                  (sortSegs (bucketOf groups g p)) }) }) }

/-- Embedding of `Dossier::collate_references` (src/src/dossier.rs lines
449-500): filter the cross-reference list to edges into `item`, push a
rendered link per edge grouped by source-category display name and
humanized property name, then sort and assemble.  `none` models the
panicking `unwrap`s (unregistered target, source, or source category). -/
def collate_references (d : Dossier) (context : PageContext) (item : Nat) :
    Option CollatedCrossReferences :=
  match alistGet d.entries item with
  | none => none
  | some entry =>
    ((d.cross_references.filter (fun c => c.to_id = item)).foldlM
        (fun gs cr => add_ref_link d context gs entry cr.from_id cr.from_property)
        ([] : RefGroups)).map
      assembleCollated

/-- Embedding of `Dossier::find_references_to`, whose definition is
missing from src/ (src/src/page.rs line 527 calls it; modelled from the
spec: the plain list of source ids of the edges into `id`, no duplicates
dropped and no extras). -/
def find_references_to (d : Dossier) (id : Nat) : List Nat :=
  (d.cross_references.filter (fun c => c.to_id = id)).map
    (fun c => c.from_id)

/-- Name of a registered entry, as `dossier.entries.get(&id).unwrap().name()`
reads it; the panic on a missing id is modelled by the empty string (the
claims that use it assume the id registered). -/
def entryName (d : Dossier) (id : Nat) : String :=
  ((alistGet d.entries id).map (fun e => e.name)).getD ""

/-- Embedding of `Dossier::add_entries` (src/src/dossier.rs lines
411-429).  The Rust takes `&mut self` and returns `Result<(), Error>`;
here the (possibly partially mutated) dossier is returned together with
the error, `none` meaning `Ok(())`.  Per entry, in source order: the
category must exist (else the loop stops with the error and all earlier
mutations stand), the entry id is pushed onto the category's member list,
the entry's cross-references are recorded, and the entry is inserted into
the entry map. -/
def add_entries (d : Dossier) : List EntryRec → Dossier × Option String
  | [] => (d, none)
  | e :: rest =>
    match alistGet d.categories e.category_id with
    | none => (d, some "Tried adding an entry with a category that doesn't exist?")
    | some _ =>
      let d1 := { d with
        categories := alistModify e.category_id
          (fun c => { c with entries := c.entries ++ [e.id] }) d.categories }
      let d2 := { d1 with
        cross_references := d1.cross_references ++
          e.crossRefs.map (fun (pr : String × Nat) => CrossReference.mk e.id pr.1 pr.2) }
      let d3 := { d2 with entries := alistInsert d2.entries e.id e }
      add_entries d3 rest

/-- Registration of one entry without the category check (the successful
path of one `add_entries` iteration). -/
def registerOne (d : Dossier) (e : EntryRec) : Dossier :=
  let d1 := { d with
    categories := alistModify e.category_id
      (fun c => { c with entries := c.entries ++ [e.id] }) d.categories }
  let d2 := { d1 with
    cross_references := d1.cross_references ++
      e.crossRefs.map (fun (pr : String × Nat) => CrossReference.mk e.id pr.1 pr.2) }
  { d2 with entries := alistInsert d2.entries e.id e }

/-- Registration of a list of entries along the successful path. -/
def registerAll (d : Dossier) (es : List EntryRec) : Dossier :=
  es.foldl registerOne d

/-- Embedding of `page::PaginationInfo`. -/
structure PaginationInfo where
  current_page : Nat
  total_pages : Nat
deriving DecidableEq, Repr

/-- Embedding of `page::MaskPage` (the fields its `Page` impl reads; the
shared dossier handle is passed separately where needed). -/
structure MaskPage where
  id : Nat
  entry_id : Nat
  name : String
  modifiers : List Nat
  page : PaginationInfo
deriving DecidableEq, Repr

/-- Map with a counter that starts one above the given seed; models the
mutable `page` counter the `MaskPage::new` closure increments on each
invocation (the threshold-aware `paginate` invokes its callback once per
chunk in chunk order, so the counter equals the 1-based chunk index). -/
def mapWithCounter {α β : Type} (f : Nat → α → β) : Nat → List α → List β
  | _, [] => []
  | n, x :: xs => f (n + 1) x :: mapWithCounter f (n + 1) xs

/-- The sorted modifier list of `MaskPage::new` (src/src/page.rs lines
527-528): the sources of the references to the mask's entry, sorted by
entry name (`sort_by_key`). -/
def maskModifiersSorted (d : Dossier) (entry_id : Nat) : List Nat :=
  (find_references_to d entry_id).insertionSort
    (fun a b => strLe (entryName d a) (entryName d b) = true)

/-- Embedding of `MaskPage::new` (src/src/page.rs lines 526-547): gather
the modifier entries referencing the mask, sort them by name, and
paginate them with the configured mode and a minimum threshold of 4; each
chunk becomes one `MaskPage` whose pagination info pairs the closure's
page counter with the total page count passed to the callback (equal to
the number of chunks in every branch of the threshold-aware
`paginate`). -/
def MaskPage.new (d : Dossier) (id : Nat) (entry_id : Nat) (name : String) :
    List MaskPage :=
  let modifiers := maskModifiersSorted d entry_id
  let cs := paginateChunks d.pagination 4 modifiers
  mapWithCounter
    (fun page chunk => MaskPage.mk id entry_id name chunk
      (PaginationInfo.mk page cs.length))
    0 cs

/-- Embedding of `MaskPage::entries` (src/src/page.rs lines 583-590): the
page's modifier chunk, with the mask's own defining entry id pushed at the
end on page 1 only. -/
def MaskPage.entries (p : MaskPage) : List Nat :=
  if p.page.current_page = 1 then p.modifiers ++ [p.entry_id] else p.modifiers

/-- Embedding of `page::CategoryListPage` (the fields its `Page` impl
reads: the category, the shared dossier, the entry ids placed on this
page, and this page's pagination info). -/
structure CategoryListPage where
  category : DocCategory
  dossier : Dossier
  entries : List Nat
  page : PaginationInfo
deriving DecidableEq, Repr

/-- Embedding of `CategoryListPage::anchors` (src/src/page.rs lines
268-279): one `(entry id, entry name)` pair for every member of the whole
category, regardless of which entries sit on this page. -/
def CategoryListPage.anchors (p : CategoryListPage) : List (Nat × String) :=
  p.category.entries.map (fun id => (id, entryName p.dossier id))

/-- The slice of a page's interface that `SiteMap::from_pages` reads
(src/src/mapper.rs): its id, extension-less output path, short title,
pagination info, and the `page_url` function. -/
structure PageM where
  id : Nat
  path : String
  short_title : String
  pagination : Option PaginationInfo
  page_url : Nat → String

/-- Embedding of `mapper::SiteMap`: a node of the hierarchical site-map
tree (children keyed by path segment; the `RefCell` wrappers of the Rust
tree are dropped, mutation is explicit). -/
inductive SiteMap where
  | node (title : String) (key : String) (absolute_url : String)
      (page_ids : List Nat) (page : Option PaginationInfo)
      (children : List (String × SiteMap)) : SiteMap

/-- Title of a site-map node. -/
def SiteMap.title : SiteMap → String
  | .node t _ _ _ _ _ => t

/-- Path-segment key of a site-map node. -/
def SiteMap.key : SiteMap → String
  | .node _ k _ _ _ _ => k

/-- Canonical absolute URL of a site-map node. -/
def SiteMap.absolute_url : SiteMap → String
  | .node _ _ u _ _ _ => u

/-- Owning page ids recorded on a site-map node. -/
def SiteMap.page_ids : SiteMap → List Nat
  | .node _ _ _ ids _ _ => ids

/-- Pagination info recorded on a site-map node. -/
def SiteMap.page : SiteMap → Option PaginationInfo
  | .node _ _ _ _ pg _ => pg

/-- Children of a site-map node, keyed by path segment. -/
def SiteMap.children : SiteMap → List (String × SiteMap)
  | .node _ _ _ _ _ c => c

/-- File stem of one path component: drops the extension (the part after
the last dot), keeping a leading dot's segment whole — the behaviour of
`PathBuf::set_extension` on the file name. -/
def stemChars (cs : List Char) : List Char :=
  match cs.reverse.dropWhile (fun c => c ≠ '.') with
  | [] => cs
  | [_] => cs
  | _ :: rest => rest.reverse

/-- Embedding of `PathBuf::set_extension("html")` on a forward-slash
path: replaces (or appends) the final component's extension with
`html`. -/
def setExtHtml (path : String) : String :=
  match ((splitChars '/' path.data).map String.mk).reverse with
  | [] => path
  | last :: revInit =>
    String.intercalate "/"
      ((String.mk (stemChars last.data) ++ ".html") :: revInit).reverse

/-- Embedding of `PathBuf::components` for the simple relative paths the
pages produce: the nonempty forward-slash segments. -/
def pathComponents (path : String) : List String :=
  ((splitChars '/' path.data).map String.mk).filter (fun s => s ≠ "")

/-- Record a page id on a node (`self.page_ids.push(page.id())`). -/
def SiteMap.pushId (m : SiteMap) (p : PageM) : SiteMap :=
  .node m.title m.key m.absolute_url (m.page_ids ++ [p.id]) m.page m.children

/-- The empty-components branch of `SiteMap::fill_from_path`
(src/src/mapper.rs lines 54-66): overwrite the current node's title and
pagination from the page, record the page id, and set the canonical
absolute URL — page 1's URL when the page is paginated over more than one
page, the page's own path otherwise, with the extension set to `html`. -/
def SiteMap.leafUpdate (m : SiteMap) (p : PageM) : SiteMap :=
  .node p.short_title m.key
    (setExtHtml (match p.pagination with
      | some pg => if 1 < pg.total_pages then p.page_url 1 else p.path
      | none => p.path))
    (m.page_ids ++ [p.id]) p.pagination m.children

/-- Embedding of `SiteMap::fill_from_path` (src/src/mapper.rs lines
53-94): walk the path components; a component beginning with `"index."`
recurses on the current node instead of creating a child; otherwise the
matching child is updated (or a fresh node is created and appended). -/
def SiteMap.fill_from_path (m : SiteMap) : List String → PageM → SiteMap
  | [], p => m.leafUpdate p
  | first :: rest, p =>
    let m1 := m.pushId p
    if strStartsWith first "index." then m1.fill_from_path rest p
    else
      match alistGet m1.children first with
      | some child =>
        .node m1.title m1.key m1.absolute_url m1.page_ids m1.page
          (alistModify first (fun _ => child.fill_from_path rest p) m1.children)
      | none =>
        let newNode : SiteMap := .node "" first "" [p.id] none []
        .node m1.title m1.key m1.absolute_url m1.page_ids m1.page
          (m1.children ++ [(first, newNode.fill_from_path rest p)])

/-- Embedding of `SiteMap::from_pages` (src/src/mapper.rs lines 34-51):
start from the profile root node and insert every page's path. -/
def SiteMap.from_pages (profileTitle : String) (pages : List PageM) : SiteMap :=
  pages.foldl
    (fun m p => m.fill_from_path (pathComponents p.path) p)
    (.node profileTitle "" "/index.html" [] none [])

/-- Walk the site-map tree along child keys. -/
def SiteMap.navigate : SiteMap → List String → Option SiteMap
  | m, [] => some m
  | m, k :: rest =>
    match alistGet m.children k with
    | some c => c.navigate rest
    | none => none

/-- Embedding of `syntax_highlight::HighlightToken`. -/
inductive HighlightToken where
  | text | identifier | string | date | bool | number | placeholder
  | operator | comment
deriving DecidableEq, Repr

/-- The `{:?}` rendering of a token, as interpolated into the span class
names. -/
def HighlightToken.debugName : HighlightToken → String
  | .text => "Text"
  | .identifier => "Identifier"
  | .string => "String"
  | .date => "Date"
  | .bool => "Bool"
  | .number => "Number"
  | .placeholder => "Placeholder"
  | .operator => "Operator"
  | .comment => "Comment"

/-- Embedding of `clauser::types::CollectionType` (the two cases the
writer distinguishes). -/
inductive CollectionType where
  | object | array
deriving DecidableEq, Repr

/-- Embedding of `syntax_highlight::HighlightFrame`: one open collection,
recording whether it renders on a single line. -/
structure HighlightFrame where
  collection : CollectionType
  same_line : Bool
deriving DecidableEq, Repr

/-- State of `syntax_highlight::HighlightedWriter`: the accumulated HTML
output, the stack of open collection frames (head = innermost), the
signed indentation depth, the coalescing plain-text buffer, and the
`started` and `has_written_token` flags.  (The `TextPosition` field only
feeds error messages and is dropped.) -/
structure WriterState where
  output : String
  frames : List HighlightFrame
  depth : Int
  current_text : String
  started : Bool
  has_written_token : Bool
deriving DecidableEq, Repr

/-- Embedding of `HighlightedWriter::new`: empty output, no frames, depth
`-1`, empty text buffer, flags down. -/
def newWriter : WriterState :=
  ⟨"", [], -1, "", false, false⟩

/-- One escaped character of `handlebars::html_escape` (the characters it
replaces by entities; backtick and the apostrophe are written by code
point). -/
def escapeChar (c : Char) : String :=
  if c = '<' then "&lt;"
  else if c = '>' then "&gt;"
  else if c = '"' then "&quot;"
  else if c = '&' then "&amp;"
  else if c = Char.ofNat 39 then "&#x27;"
  else if c = Char.ofNat 96 then "&#x60;"
  else if c = '=' then "&#x3d;"
  else String.mk [c]

/-- Embedding of `handlebars::html_escape`. -/
def htmlEscape (s : String) : String :=
  String.join (s.data.map escapeChar)

/-- The span markup of `HighlightedWriter::write_span_for`. -/
def spanFor (token : HighlightToken) (out : String) : String :=
  "<span class=\"pd-token-" ++ token.debugName ++ "\">" ++ htmlEscape out
    ++ "</span>"

/-- Embedding of `HighlightedWriter::write`: append to the output. -/
def wwrite (st : WriterState) (out : String) : WriterState :=
  { st with output := st.output ++ out }

/-- Embedding of `HighlightedWriter::write_span_for`. -/
def write_span_for (st : WriterState) (token : HighlightToken)
    (out : String) : WriterState :=
  wwrite st (spanFor token out)

/-- Embedding of `HighlightedWriter::write_text`: buffer plain text (it
is coalesced into one span at the next flush). -/
def write_text (st : WriterState) (out : String) : WriterState :=
  { st with current_text := st.current_text ++ out }

/-- Embedding of `HighlightedWriter::flush_text`: emit the buffered text
as one `Text` span, if any. -/
def flush_text (st : WriterState) : WriterState :=
  if st.current_text = "" then st
  else write_span_for { st with current_text := "" } .text st.current_text

/-- Embedding of `HighlightedWriter::new_line`: flush the text buffer,
then write `<br/>`. -/
def new_line (st : WriterState) : WriterState :=
  wwrite (flush_text st) "<br/>"

/-- Embedding of `HighlightedWriter::indent`: error at negative depth,
otherwise buffer `depth * 4` spaces. -/
def indent (st : WriterState) : Except String WriterState :=
  if st.depth < 0 then .error "Tried to indent with negative depth!"
  else .ok (write_text st (String.mk (List.replicate (st.depth.toNat * 4) ' ')))

/-- Embedding of `HighlightedWriter::start_collection`
(src/src/util/syntax_highlight.rs lines 105-123): write the opening brace
(buffered) only when the current depth is at least 0, bump the depth for a
block-style collection, and push the frame. -/
def start_collection (st : WriterState) (collection : CollectionType)
    (same_line : Bool) : WriterState :=
  let st1 := if 0 ≤ st.depth then write_text st "\x7b " else st
  let st2 := if same_line then st1 else { st1 with depth := st1.depth + 1 }
  { st2 with frames := ⟨collection, same_line⟩ :: st2.frames }

/-- Embedding of `HighlightedWriter::end_collection`
(src/src/util/syntax_highlight.rs lines 125-150): pop the frame (error if
none); block-style: de-indent, newline, indent when the new depth is at
least 0; inline: buffer one space; then the closing brace only when the
current depth is at least 0, and flush. -/
def end_collection (st : WriterState) : Except String WriterState :=
  match st.frames with
  | [] => .error "Tried to end collection that wasn't started!"
  | frame :: rest =>
    let st1 := { st with frames := rest }
    let step : Except String WriterState :=
      if frame.same_line then .ok (write_text st1 " ")
      else
        let sta := { st1 with depth := st1.depth - 1 }
        let stb := new_line sta
        if 0 ≤ stb.depth then indent stb else .ok stb
    match step with
    | .error e => .error e
    | .ok st2 =>
      let st3 := if 0 ≤ st2.depth then write_text st2 "\x7d" else st2
      .ok (flush_text st3)

/-- Embedding of `HighlightedWriter::write_nontext`: flush the buffered
text, mark that a token has been written, and emit the span. -/
def write_nontext (st : WriterState) (token : HighlightToken)
    (out : String) : WriterState :=
  write_span_for { flush_text st with has_written_token := true } token out

/-- Embedding of `Writer::begin_object` for the highlighter: objects are
always block-style. -/
def begin_object (st : WriterState) (_length : Option Nat) : WriterState :=
  start_collection st .object false

/-- Embedding of `Writer::begin_array` for the highlighter
(src/src/util/syntax_highlight.rs lines 220-223): inline exactly when a
declared length is provided and is strictly less than 4. -/
def begin_array (st : WriterState) (length : Option Nat) : WriterState :=
  start_collection st .array
    ((length.map (fun l => decide (l < 4))).getD false)

/-- Embedding of `Writer::end_object`. -/
def end_object (st : WriterState) : Except String WriterState :=
  end_collection st

/-- Embedding of `Writer::end_array`. -/
def end_array (st : WriterState) : Except String WriterState :=
  end_collection st

/-- Model of `Writer::write_object_key` (a provided method of the
external `clauser` writer trait): emits the key's token stream.  Only the
facts that it emits spans and leaves the frame stack and depth untouched
matter to any claim. -/
def write_object_key (st : WriterState) (key : String) : WriterState :=
  write_nontext st .identifier key

/-- Embedding of `Writer::write_property` for the highlighter: a newline
before the first property when tokens precede it; errors without an open
object frame; block-style objects put each later property on a fresh
indented line. -/
def write_property (st : WriterState) (key : String) :
    Except String WriterState :=
  let st1 := if !st.started && st.has_written_token then new_line st else st
  match st1.frames with
  | [] => .error "Tried to write property with no collection!"
  | frame :: _ =>
    if frame.collection ≠ CollectionType.object then
      .error "Tried to write property from an array!"
    else
      match
        if !frame.same_line && st1.started then indent (new_line st1)
        else .ok st1
      with
      | .error e => .error e
      | .ok st2 => .ok (write_object_key { st2 with started := true } key)

/-- Embedding of `Writer::write_direct`. -/
def write_direct (st : WriterState) (s : String) : WriterState :=
  write_text st s

/-- Embedding of `Writer::write_string`. -/
def write_string (st : WriterState) (s : String) : WriterState :=
  write_nontext st .string ("\"" ++ s ++ "\"")

/-- Embedding of `Writer::write_identifier`. -/
def write_identifier (st : WriterState) (s : String) : WriterState :=
  write_nontext st .identifier s

/-- Embedding of `Writer::write_date` (the date's rendered text is taken
as given). -/
def write_date (st : WriterState) (dateText : String) : WriterState :=
  write_nontext st .date dateText

/-- Embedding of `Writer::write_boolean`. -/
def write_boolean (st : WriterState) (b : Bool) : WriterState :=
  write_nontext st .bool (if b then "yes" else "no")

/-- Embedding of `Writer::write_placeholder`. -/
def write_placeholder (st : WriterState) (s : String) : WriterState :=
  write_nontext st .placeholder ("<" ++ s ++ ">")

/-- Embedding of `Writer::write_integer`. -/
def write_integer (st : WriterState) (n : Int) : WriterState :=
  write_nontext st .number (toString n)

/-- Embedding of `Writer::write_decimal` (the `f64`'s rendered text is
taken as given; floating point itself is out of scope). -/
def write_decimal (st : WriterState) (numberText : String) : WriterState :=
  write_nontext st .number numberText

/-- Embedding of `clauser::types::Operator`. -/
inductive Operator where
  | greaterThan | greaterThanEq | lessThan | lessThanEq
deriving DecidableEq, Repr

/-- Embedding of `Writer::write_operator`. -/
def write_operator (st : WriterState) (op : Operator) : WriterState :=
  write_nontext st .operator
    (match op with
      | .greaterThan => ">"
      | .greaterThanEq => ">="
      | .lessThan => "<"
      | .lessThanEq => "<=")

/-- Embedding of `Writer::write_comment`: a comment that is not the very
first token is preceded by a forced newline and indent (which errors at
negative depth). -/
def write_comment (st : WriterState) (s : String) :
    Except String WriterState :=
  match if st.has_written_token then indent (new_line st) else .ok st with
  | .error e => .error e
  | .ok st1 => .ok (write_nontext st1 .comment ("# " ++ s))

/-- Embedding of `Writer::write_value`. -/
def write_value (st : WriterState) (s : String) : WriterState :=
  write_direct st s

/-- Number of block-style (not same-line) frames on the stack. -/
def blockCount (frames : List HighlightFrame) : Int :=
  ((frames.filter (fun f => !f.same_line)).length : Int)

/-- The depth/frames invariant of the highlighter: the indentation depth
always equals the number of open block-style frames minus one. -/
def DepthInv (st : WriterState) : Prop :=
  st.depth = blockCount st.frames - 1

/-- The grouping structure `collate_references` builds from a list of
(group name, property name, link) triples, starting from `gs`. -/
def buildFrom (gs : RefGroups)
    (ts : List (String × String × DocStringSegment)) : RefGroups :=
  ts.foldl (fun acc t => groupsPush acc t.1 t.2.1 t.2.2) gs

/- Concrete fixtures used by the witness theorems. -/

/-- Witness page context: a deterministic URL resolver. -/
def ctxW : PageContext :=
  ⟨fun a b => "u" ++ toString a ++ "_" ++ toString b⟩

/-- Witness category of effects entries. -/
def wCatEffects : DocCategory := ⟨1, "effects", "Effects", [101, 102]⟩

/-- Witness category of triggers entries. -/
def wCatTriggers : DocCategory := ⟨2, "triggers", "Triggers", [103]⟩

/-- Witness target entry. -/
def wTarget : EntryRec := ⟨100, 1, "target", []⟩

/-- Witness source entry named zeta. -/
def wZeta : EntryRec := ⟨101, 1, "zeta", []⟩

/-- Witness source entry named alpha. -/
def wAlpha : EntryRec := ⟨102, 1, "alpha", []⟩

/-- Witness source entry named beta. -/
def wBeta : EntryRec := ⟨103, 2, "beta", []⟩

/-- Witness dossier: two categories, four entries, four cross-references
inserted in scrambled order. -/
def dW : Dossier :=
  ⟨[(1, wCatEffects), (2, wCatTriggers)],
    [(100, wTarget), (101, wZeta), (102, wAlpha), (103, wBeta)],
    [⟨101, "supported_scopes", 100⟩, ⟨103, "supported_scopes", 100⟩,
      ⟨102, "supported_scopes", 100⟩, ⟨102, "mask", 100⟩],
    .none⟩

/-- Witness dossier for the mask pages: five modifier entries referencing
mask entry `77`, pagination limit 4 (the spec's `tax_mask` example). -/
def dMaskW : Dossier :=
  ⟨[],
    [(201, ⟨201, 9, "m1", []⟩), (202, ⟨202, 9, "m2", []⟩),
      (203, ⟨203, 9, "m3", []⟩), (204, ⟨204, 9, "m4", []⟩),
      (205, ⟨205, 9, "m5", []⟩), (77, ⟨77, 8, "tax_mask", []⟩)],
    [⟨201, "Mask", 77⟩, ⟨202, "Mask", 77⟩, ⟨203, "Mask", 77⟩,
      ⟨204, "Mask", 77⟩, ⟨205, "Mask", 77⟩],
    .absolute 4⟩

/-- Witness dossier for `add_entries`: one registered category. -/
def dAddW : Dossier :=
  ⟨[(1, ⟨1, "effects", "Effects", []⟩)], [], [], .none⟩

/-- Witness entries for `add_entries`: the second declares an
unregistered category. -/
def wAddEntries : List EntryRec :=
  [⟨301, 1, "first", [("Supported Scopes", 900)]⟩,
    ⟨302, 99, "second", [("Mask", 901)]⟩,
    ⟨303, 1, "third", []⟩]

/-- Witness page: an index page of the modifiers subtree. -/
def wIndexPage : PageM :=
  ⟨11, "modifiers/index.html", "Modifiers", none, fun _ => "unused"⟩

/-- Witness page: page 1 of a two-page effects group. -/
def wPagedPage : PageM :=
  ⟨12, "effects_p1", "Effects", some ⟨1, 2⟩,
    fun n => "effects_p" ++ toString n⟩

/-- Witness site-map root. -/
def wRoot : SiteMap := .node "Root" "" "/index.html" [] none []

/-! Theorems. -/

theorem chunksEvery_flatten {α : Type} :
    ∀ (n : Nat) (l : List α), 0 < n → (chunksEvery n l).flatten = l := by
  intro n l
  induction n, l using chunksEvery.induct with
  | case1 x =>
    intro _
    simp [chunksEvery]
  | case2 head tail =>
    intro h
    omega
  | case3 n x xs ih =>
    intro _
    rw [chunksEvery, List.flatten_cons, ih (by omega), List.take_append_drop]

theorem chunksEvery_eq_nil_iff {α : Type} (n : Nat) (l : List α) (hn : 0 < n) :
    chunksEvery n l = [] ↔ l = [] := by
  match n, l with
  | n, [] => simp [chunksEvery]
  | 0, x :: xs => omega
  | n + 1, x :: xs => rw [chunksEvery]; simp

theorem chunksEvery_length {α : Type} :
    ∀ (n : Nat) (l : List α), 0 < n →
      (chunksEvery n l).length = (l.length + n - 1) / n := by
  intro n l
  induction n, l using chunksEvery.induct with
  | case1 x =>
    intro h
    simp only [chunksEvery, List.length_nil]
    exact (Nat.div_eq_of_lt (by omega)).symm
  | case2 head tail =>
    intro h
    omega
  | case3 n x xs ih =>
    intro _
    rw [chunksEvery, List.length_cons, ih (by omega)]
    simp only [List.length_drop, List.length_cons, Nat.succ_eq_add_one]
    rcases Nat.lt_or_ge xs.length (n + 1) with hlt | hge
    · have e1 : xs.length + 1 - (n + 1) + (n + 1) - 1 = n := by omega
      have e2 : xs.length + 1 + (n + 1) - 1 = xs.length + (n + 1) := by omega
      rw [e1, e2]
      have h4 := Nat.add_div_right xs.length (show 0 < n + 1 by omega)
      have h5 : n / (n + 1) = 0 := Nat.div_eq_of_lt (by omega)
      have h6 : xs.length / (n + 1) = 0 := Nat.div_eq_of_lt (by omega)
      omega
    · have e1 : xs.length + 1 - (n + 1) + (n + 1) - 1 =
          xs.length - n - 1 + (n + 1) := by
        omega
      have e2 : xs.length + 1 + (n + 1) - 1 =
          xs.length - n - 1 + (n + 1) + (n + 1) := by
        omega
      rw [e1, e2]
      have h4 := Nat.add_div_right (xs.length - n - 1) (show 0 < n + 1 by omega)
      have h5 := Nat.add_div_right (xs.length - n - 1 + (n + 1))
        (show 0 < n + 1 by omega)
      omega

theorem chunksEvery_mem_length {α : Type} :
    ∀ (n : Nat) (l : List α) (c : List α), c ∈ chunksEvery n l → c.length ≤ n := by
  intro n l
  induction n, l using chunksEvery.induct with
  | case1 x =>
    intro c hc
    simp [chunksEvery] at hc
  | case2 head tail =>
    intro c hc
    simp [chunksEvery] at hc
  | case3 n x xs ih =>
    intro c hc
    rw [chunksEvery] at hc
    rcases List.mem_cons.mp hc with h | h
    · subst h
      simpa using List.length_take_le (n + 1) (x :: xs)
    · exact ih c h

theorem chunksEvery_get_full {α : Type} :
    ∀ (n : Nat) (l : List α) (i : Nat), i + 1 < (chunksEvery n l).length →
      ∀ c, (chunksEvery n l)[i]? = some c → c.length = n := by
  intro n l
  induction n, l using chunksEvery.induct with
  | case1 x =>
    intro i hi c hc
    simp [chunksEvery] at hi
  | case2 head tail =>
    intro i hi c hc
    simp [chunksEvery] at hi
  | case3 n x xs ih =>
    intro i hi c hc
    rw [chunksEvery] at hi hc
    match i with
    | 0 =>
      simp only [List.getElem?_cons_zero, Option.some.injEq] at hc
      subst hc
      have hne : chunksEvery (n + 1) (List.drop (n + 1) (x :: xs)) ≠ [] := by
        intro hnil
        rw [List.length_cons, hnil] at hi
        simp at hi
      have hdrop : List.drop (n + 1) (x :: xs) ≠ [] := by
        intro hd
        exact hne ((chunksEvery_eq_nil_iff (n + 1) _ (by omega)).mpr hd)
      have hlen : 0 < (List.drop (n + 1) (x :: xs)).length :=
        List.length_pos.mpr hdrop
      rw [List.length_drop, List.length_cons] at hlen
      rw [List.length_take, List.length_cons]
      omega
    | i + 1 =>
      simp only [List.length_cons] at hi
      simp only [List.getElem?_cons_succ] at hc
      exact ih i (by omega) c hc

/-- C2: for limit `L > 0`, `paginate` in `Absolute(L)` mode maps the page
constructor over the `L`-sized chunks of the items: there are exactly
`ceil(n / L)` pages, the chunks concatenate back to the items in order,
every chunk holds at most `L` items and every chunk but the last exactly
`L`; in `None` mode there is exactly one page built from all items. -/
theorem paginate_absolute_none_spec {α P : Type} (L : Nat) (hL : 0 < L)
    (items : List α) (f : List α → P) :
    paginate (.absolute L) items f = (chunksEvery L items).map f ∧
    (paginate (.absolute L) items f).length = (items.length + L - 1) / L ∧
    (chunksEvery L items).flatten = items ∧
    (∀ c ∈ chunksEvery L items, c.length ≤ L) ∧
    (∀ i : Nat, i + 1 < (chunksEvery L items).length →
      ∀ c, (chunksEvery L items)[i]? = some c → c.length = L) ∧
    paginate PaginationMode.none items f = [f items] := by
  refine ⟨rfl, ?_, chunksEvery_flatten L items hL,
    fun c hc => chunksEvery_mem_length L items c hc,
    fun i hi c hc => chunksEvery_get_full L items i hi c hc, rfl⟩
  show ((chunksEvery L items).map f).length = _
  rw [List.length_map, chunksEvery_length L items hL]

/-- Closed witness for the C2 theorem at `L = 2` and five items. -/
theorem paginate_absolute_none_spec_witness :
    paginate (.absolute 2) [1, 2, 3, 4, 5] (fun c => c) =
        (chunksEvery 2 [1, 2, 3, 4, 5]).map (fun c => c) ∧
      (paginate (.absolute 2) [1, 2, 3, 4, 5] (fun c => c)).length =
        (5 + 2 - 1) / 2 ∧
      (chunksEvery 2 [1, 2, 3, 4, 5]).flatten = [1, 2, 3, 4, 5] ∧
      (∀ c ∈ chunksEvery 2 [1, 2, 3, 4, 5], c.length ≤ 2) ∧
      (∀ i : Nat, i + 1 < (chunksEvery 2 [1, 2, 3, 4, 5]).length →
        ∀ c, (chunksEvery 2 [1, 2, 3, 4, 5])[i]? = some c → c.length = 2) ∧
      paginate PaginationMode.none [1, 2, 3, 4, 5] (fun c => c) =
        [[1, 2, 3, 4, 5]] :=
  paginate_absolute_none_spec 2 (by decide) [1, 2, 3, 4, 5] (fun c => c)


theorem mapWithCounter_length {α β : Type} (f : Nat → α → β) :
    ∀ (k : Nat) (l : List α), (mapWithCounter f k l).length = l.length := by
  intro k l
  induction l generalizing k with
  | nil => rfl
  | cons x xs ih => simp [mapWithCounter, ih]

theorem mapWithCounter_getElem? {α β : Type} (f : Nat → α → β) :
    ∀ (k : Nat) (l : List α) (i : Nat),
      (mapWithCounter f k l)[i]? = (l[i]?).map (f (k + i + 1)) := by
  intro k l
  induction l generalizing k with
  | nil => intro i; simp [mapWithCounter]
  | cons x xs ih =>
    intro i
    match i with
    | 0 => simp [mapWithCounter]
    | i + 1 =>
      simp only [mapWithCounter, List.getElem?_cons_succ, ih (k + 1) i]
      have : k + 1 + i + 1 = k + (i + 1) + 1 := by omega
      rw [this]

/-- C3: the threshold-aware `paginate` takes a minimum-threshold
parameter that suppresses pagination below the size floor, and its
`make_page` callback receives the computed total page count together with
each chunk, once per chunk, with the chunks delivered in increasing
page-number order starting at 1 and no gaps (the i-th invocation receives
the i-th chunk, so a caller counting invocations numbers the pages
1..total). -/
theorem paginate_min_contract {α P : Type} (mode : PaginationMode)
    (minimum : Nat) (items : List α) (f : Nat → List α → P) :
    paginateMin mode minimum items f =
      (paginateChunks mode minimum items).map
        (f (paginateChunks mode minimum items).length) ∧
    (paginateMin mode minimum items f).length =
      (paginateChunks mode minimum items).length ∧
    (∀ i : Nat, (paginateMin mode minimum items f)[i]? =
      ((paginateChunks mode minimum items)[i]?).map
        (f (paginateChunks mode minimum items).length)) ∧
    (items.length < minimum → paginateMin mode minimum items f = [f 1 items]) := by
  have hmap : paginateMin mode minimum items f =
      (paginateChunks mode minimum items).map
        (f (paginateChunks mode minimum items).length) := by
    unfold paginateMin paginateChunks
    by_cases h : items.length < minimum
    · rw [if_pos h, if_pos h]
      rfl
    · rw [if_neg h, if_neg h]
      cases mode with
      | none => rfl
      | absolute limit => rfl
  refine ⟨hmap, by rw [hmap, List.length_map], ?_, ?_⟩
  · intro i
    rw [hmap, List.getElem?_map]
  · intro h
    unfold paginateMin
    rw [if_pos h]

/-- Closed witness for the C3 theorem: three items under a floor of 4
stay on a single page; the callback sees the total page count. -/
theorem paginate_min_contract_witness :
    (paginateMin (.absolute 2) 4 [10, 20, 30] (fun n c => (n, c)) =
      (paginateChunks (.absolute 2) 4 [10, 20, 30]).map
        ((fun n c => (n, c)) (paginateChunks (.absolute 2) 4 [10, 20, 30]).length)) ∧
    paginateMin (.absolute 2) 4 [10, 20, 30] (fun n c => (n, c)) =
      [(1, [10, 20, 30])] :=
  ⟨(paginate_min_contract (.absolute 2) 4 [10, 20, 30] (fun n c => (n, c))).1,
    (paginate_min_contract (.absolute 2) 4 [10, 20, 30]
      (fun n c => (n, c))).2.2.2 (by decide)⟩

/-- C5: `link_for_entry` never fails: when the resolved target id has no
registered entry it returns a plain-text segment carrying the raw name,
and when the target is registered it returns a link segment whose URL is
resolved through the site mapper (the context's `url_for_entry`). -/
theorem link_for_entry_fallback (d : Dossier) (context : PageContext)
    (from_ : EntryRec) (name : String) (id : Nat) :
    (alistGet d.entries id = none →
      link_for_entry d context from_ name id = .text name) ∧
    (∀ e, alistGet d.entries id = some e →
      link_for_entry d context from_ name id =
        .link name (context.url_for_entry from_.id e.id)) := by
  constructor
  · intro h
    unfold link_for_entry
    rw [h]
  · intro e h
    unfold link_for_entry
    rw [h]

/-- Closed witness for the C5 theorem: a dangling id renders as text, a
registered id as a mapper-resolved link. -/
theorem link_for_entry_fallback_witness :
    link_for_entry dW ctxW wTarget "ghost" 999 = .text "ghost" ∧
    link_for_entry dW ctxW wTarget "zeta" 101 =
      .link "zeta" (ctxW.url_for_entry wTarget.id wZeta.id) :=
  ⟨(link_for_entry_fallback dW ctxW wTarget "ghost" 999).1 (by decide),
    (link_for_entry_fallback dW ctxW wTarget "zeta" 101).2 wZeta (by decide)⟩

/-- C7: the anchors of a category listing page cover every entry id of
the whole category — one pair per member, anchored by the entry's name —
independently of which entries are placed on the page and of the page's
position in the pagination sequence. -/
theorem category_list_page_anchors (d : Dossier) (cat : DocCategory)
    (held1 held2 : List Nat) (pi1 pi2 : PaginationInfo) :
    (CategoryListPage.mk cat d held1 pi1).anchors =
      (CategoryListPage.mk cat d held2 pi2).anchors ∧
    ((CategoryListPage.mk cat d held1 pi1).anchors).length =
      cat.entries.length ∧
    (∀ id ∈ cat.entries, ∀ e, alistGet d.entries id = some e →
      (id, e.name) ∈ (CategoryListPage.mk cat d held1 pi1).anchors) ∧
    (∀ pr ∈ (CategoryListPage.mk cat d held1 pi1).anchors,
      pr.1 ∈ cat.entries ∧ pr.2 = entryName d pr.1) := by
  refine ⟨rfl, by simp [CategoryListPage.anchors], ?_, ?_⟩
  · intro id hid e he
    unfold CategoryListPage.anchors
    apply List.mem_map.mpr
    refine ⟨id, hid, ?_⟩
    simp [entryName, he]
  · intro pr hpr
    unfold CategoryListPage.anchors at hpr
    rcases List.mem_map.mp hpr with ⟨id, hid, heq⟩
    subst heq
    exact ⟨hid, rfl⟩

/-- Closed witness for the C7 theorem: two pages of the effects category
holding different entries expose identical whole-category anchors. -/
theorem category_list_page_anchors_witness :
    (CategoryListPage.mk wCatEffects dW [101] ⟨1, 2⟩).anchors =
      (CategoryListPage.mk wCatEffects dW [102] ⟨2, 2⟩).anchors ∧
    (101, wZeta.name) ∈ (CategoryListPage.mk wCatEffects dW [101] ⟨1, 2⟩).anchors :=
  ⟨(category_list_page_anchors dW wCatEffects [101] [102] ⟨1, 2⟩ ⟨2, 2⟩).1,
    (category_list_page_anchors dW wCatEffects [101] [102] ⟨1, 2⟩ ⟨2, 2⟩).2.2.1
      101 (by decide) wZeta (by decide)⟩

/-- C6: in the page sequence `MaskPage::new` produces for one mask, the
i-th page's pagination is (i+1, total); page 1 owns its sorted modifier
chunk with the mask's own entry id appended at the end, and every later
page owns its modifier chunk only. -/
theorem mask_page_entries_spec (d : Dossier) (id entry_id : Nat)
    (name : String) :
    (MaskPage.new d id entry_id name).length =
      (paginateChunks d.pagination 4 (maskModifiersSorted d entry_id)).length ∧
    (∀ i : Nat, ∀ p, (MaskPage.new d id entry_id name)[i]? = some p →
      p.page.current_page = i + 1 ∧
      p.page.total_pages =
        (paginateChunks d.pagination 4 (maskModifiersSorted d entry_id)).length ∧
      p.modifiers =
        ((paginateChunks d.pagination 4 (maskModifiersSorted d entry_id))[i]?).getD [] ∧
      (p.page.current_page = 1 →
        p.entries =
          ((paginateChunks d.pagination 4 (maskModifiersSorted d entry_id))[i]?).getD []
            ++ [entry_id]) ∧
      (1 < p.page.current_page →
        p.entries =
          ((paginateChunks d.pagination 4 (maskModifiersSorted d entry_id))[i]?).getD [])) := by
  constructor
  · unfold MaskPage.new
    rw [mapWithCounter_length]
  · intro i p hp
    unfold MaskPage.new at hp
    rw [mapWithCounter_getElem?] at hp
    rcases hmem : (paginateChunks d.pagination 4 (maskModifiersSorted d entry_id))[i]?
      with _ | c
    · rw [hmem] at hp
      simp at hp
    · rw [hmem] at hp
      simp only [Option.map_some', Option.some.injEq] at hp
      subst hp
      refine ⟨by simp, rfl, by simp [hmem], ?_, ?_⟩
      · intro h1
        unfold MaskPage.entries
        rw [if_pos h1]
        simp [hmem]
      · intro h1
        unfold MaskPage.entries
        rw [if_neg (by omega)]
        simp [hmem]

/-- Closed witness for the C6 theorem: the spec's example — a mask with
five referencing modifiers, floor 4, limit 4 — yields two pages; page 1
owns the four sorted modifiers plus the mask's own entry, page 2 the
fifth modifier only. -/
theorem mask_page_entries_spec_witness :
    (MaskPage.new dMaskW 5 77 "tax_mask").length =
      (paginateChunks dMaskW.pagination 4 (maskModifiersSorted dMaskW 77)).length ∧
    (MaskPage.mk 5 77 "tax_mask" [201, 202, 203, 204] ⟨1, 2⟩).page.current_page =
      0 + 1 ∧
    (MaskPage.mk 5 77 "tax_mask" [201, 202, 203, 204] ⟨1, 2⟩).entries =
      ((paginateChunks dMaskW.pagination 4 (maskModifiersSorted dMaskW 77))[0]?).getD []
        ++ [77] := by
  have h := mask_page_entries_spec dMaskW 5 77 "tax_mask"
  have h2 := h.2 0 (MaskPage.mk 5 77 "tax_mask" [201, 202, 203, 204] ⟨1, 2⟩)
    (by
      simp [MaskPage.new, maskModifiersSorted, find_references_to, dMaskW,
        entryName, alistGet, paginateChunks, chunksEvery, mapWithCounter,
        List.insertionSort, List.orderedInsert, strLe, charsLe])
  exact ⟨h.1, h2.1, h2.2.2.2.1 (by decide)⟩



theorem str_append_ne_empty (a b : String) (hb : b.data ≠ []) : a ++ b ≠ "" := by
  intro h
  have h2 := congrArg String.data h
  rw [String.data_append] at h2
  simp only [show ("" : String).data = [] from rfl, List.append_eq_nil] at h2
  exact hb h2.2

theorem flush_text_run (st : WriterState) :
    flush_text st =
      ⟨st.output ++
          (if st.current_text = "" then "" else spanFor .text st.current_text),
        st.frames, st.depth, "", st.started, st.has_written_token⟩ := by
  obtain ⟨out, frames, depth, cur, s1, s2⟩ := st
  by_cases hc : cur = ""
  · subst hc
    simp [flush_text, write_span_for, wwrite]
  · simp [flush_text, hc, write_span_for, wwrite]

theorem new_line_run (st : WriterState) :
    new_line st =
      ⟨(st.output ++
          (if st.current_text = "" then "" else spanFor .text st.current_text))
          ++ "<br/>",
        st.frames, st.depth, "", st.started, st.has_written_token⟩ := by
  rw [new_line, flush_text_run]
  rfl

theorem end_collection_run (st : WriterState) (frame : HighlightFrame)
    (rest : List HighlightFrame) (hfr : st.frames = frame :: rest) :
    end_collection st = .ok (
      if frame.same_line then
        ⟨st.output ++
            spanFor .text ((st.current_text ++ " ") ++
              (if 0 ≤ st.depth then "\x7d" else "")),
          rest, st.depth, "", st.started, st.has_written_token⟩
      else
        ⟨((st.output ++
            (if st.current_text = "" then "" else spanFor .text st.current_text))
            ++ "<br/>") ++
            (if 0 ≤ st.depth - 1 then
              spanFor .text
                (String.mk (List.replicate ((st.depth - 1).toNat * 4) ' ') ++ "\x7d")
            else ""),
          rest, st.depth - 1, "", st.started, st.has_written_token⟩) := by
  obtain ⟨out, frames, depth, cur, s1, s2⟩ := st
  simp only at hfr
  subst hfr
  obtain ⟨coll, sl⟩ := frame
  have hne : ∀ a : String, a ++ " " ≠ "" :=
    fun a => str_append_ne_empty a " " (by simp [String.data_append])
  have hne2 : ∀ a : String, a ++ "\x7d" ≠ "" :=
    fun a => str_append_ne_empty a "\x7d" (by simp [String.data_append])
  cases sl with
  | true =>
    by_cases hd : (0 : Int) ≤ depth
    · simp only [end_collection, if_true, write_text, flush_text, write_span_for,
        wwrite, hd, hne, hne2, if_false]
    · simp only [end_collection, if_true, write_text, flush_text, write_span_for,
        wwrite, hd, hne, hne2, if_false]
      simp
  | false =>
    rw [show end_collection ⟨out, ⟨coll, false⟩ :: rest, depth, cur, s1, s2⟩ =
        (match (if (0 : Int) ≤ depth - 1 then
            indent (new_line ⟨out, rest, depth - 1, cur, s1, s2⟩)
          else .ok (new_line ⟨out, rest, depth - 1, cur, s1, s2⟩)) with
        | .error e => .error e
        | .ok st2 =>
          .ok (flush_text (if 0 ≤ st2.depth then write_text st2 "\x7d" else st2)))
        from by
      simp only [end_collection, Bool.false_eq_true, if_false, new_line_run]]
    rw [new_line_run]
    by_cases hd : (0 : Int) ≤ depth - 1
    · rw [if_pos hd, indent]
      rw [if_neg (show ¬ ((⟨(out ++ if cur = "" then "" else
          spanFor HighlightToken.text cur) ++ "<br/>", rest, depth - 1, "", s1,
          s2⟩ : WriterState).depth < 0) from by show ¬ ((depth - 1 : Int) < 0); omega)]
      try dsimp only [write_text]
      rw [if_pos (show (0 : Int) ≤ (⟨(out ++ if cur = "" then "" else
          spanFor HighlightToken.text cur) ++ "<br/>", rest, depth - 1, "", s1,
          s2⟩ : WriterState).depth from hd)]
      try dsimp only [write_text]
      rw [flush_text_run]
      refine congrArg Except.ok ?_
      simp only [WriterState.mk.injEq]
      have hd3 : (1 : Int) ≤ depth := by omega
      simp [hne2, String.append_assoc, hd3]
    · rw [if_neg hd]
      try dsimp only
      rw [if_neg hd]
      rw [flush_text_run]
      refine congrArg Except.ok ?_
      simp only [WriterState.mk.injEq]
      have hd2 : ¬ (1 : Int) ≤ depth := by omega
      simp [hd2]

theorem start_collection_run (st : WriterState) (c : CollectionType) (sl : Bool) :
    start_collection st c sl =
      ⟨st.output, ⟨c, sl⟩ :: st.frames,
        (if sl then st.depth else st.depth + 1),
        st.current_text ++ (if 0 ≤ st.depth then "\x7b " else ""),
        st.started, st.has_written_token⟩ := by
  obtain ⟨out, frames, depth, cur, s1, s2⟩ := st
  cases sl with
  | true =>
    by_cases hd : (0 : Int) ≤ depth
    · simp [start_collection, hd, write_text]
    · simp [start_collection, hd, write_text]
  | false =>
    by_cases hd : (0 : Int) ≤ depth
    · simp [start_collection, hd, write_text]
    · simp [start_collection, hd, write_text]

theorem blockCount_cons (c : CollectionType) (sl : Bool)
    (fr : List HighlightFrame) :
    blockCount (⟨c, sl⟩ :: fr) = (if sl then 0 else 1) + blockCount fr := by
  cases sl with
  | true => simp [blockCount, List.filter_cons]
  | false =>
    simp [blockCount, List.filter_cons]
    omega

theorem blockCount_nonneg (fr : List HighlightFrame) : 0 ≤ blockCount fr := by
  simp [blockCount]

theorem any_block_iff (fr : List HighlightFrame) :
    fr.any (fun f => !f.same_line) = true ↔ 1 ≤ blockCount fr := by
  induction fr with
  | nil => simp [blockCount]
  | cons f rest ih =>
    obtain ⟨c, sl⟩ := f
    rw [blockCount_cons]
    cases sl with
    | true =>
      simp only [List.any_cons,
        show (HighlightFrame.mk c true).same_line = true from rfl]
      simp only [if_pos]
      simpa using ih
    | false =>
      simp only [List.any_cons,
        show (HighlightFrame.mk c false).same_line = false from rfl]
      simp only [Bool.not_false, Bool.true_or, true_iff]
      have := blockCount_nonneg rest
      simp only [Bool.false_eq_true, if_false]
      omega

theorem indent_preserves (st st2 : WriterState) (h : indent st = .ok st2) :
    st2.frames = st.frames ∧ st2.depth = st.depth ∧ st2.output = st.output := by
  unfold indent at h
  split at h
  · cases h
  · cases h
    exact ⟨rfl, rfl, rfl⟩

theorem write_nontext_preserves (st : WriterState) (tok : HighlightToken)
    (out : String) :
    (write_nontext st tok out).frames = st.frames ∧
    (write_nontext st tok out).depth = st.depth := by
  rw [write_nontext, flush_text_run]
  exact ⟨rfl, rfl⟩

theorem write_property_preserves (st : WriterState) (key : String)
    (st2 : WriterState) (h : write_property st key = .ok st2) :
    st2.frames = st.frames ∧ st2.depth = st.depth := by
  unfold write_property at h
  dsimp only at h
  set st1 := (if !st.started && st.has_written_token then new_line st else st)
    with hst1def
  have hp : st1.frames = st.frames ∧ st1.depth = st.depth := by
    rw [hst1def]
    split
    · rw [new_line_run]
      exact ⟨rfl, rfl⟩
    · exact ⟨rfl, rfl⟩
  rcases hfr : st1.frames with _ | ⟨frame, rest⟩
  · rw [hfr] at h
    cases h
  · rw [hfr] at h
    dsimp only at h
    by_cases hc : frame.collection ≠ CollectionType.object
    · rw [if_pos hc] at h
      cases h
    · rw [if_neg hc] at h
      by_cases hb : (!frame.same_line && st1.started) = true
      · rw [if_pos hb] at h
        rcases hind : indent (new_line st1) with e | sti
        · rw [hind] at h
          cases h
        · rw [hind] at h
          cases h
          have h1 := write_nontext_preserves
            { sti with started := true } .identifier key
          have h2 := indent_preserves (new_line st1) sti hind
          rw [new_line_run] at h2
          unfold write_object_key
          refine ⟨?_, ?_⟩
          · rw [h1.1]
            show sti.frames = st.frames
            rw [h2.1]
            exact hp.1
          · rw [h1.2]
            show sti.depth = st.depth
            rw [h2.2.1]
            exact hp.2
      · rw [if_neg hb] at h
        cases h
        have h1 := write_nontext_preserves { st1 with started := true }
          .identifier key
        unfold write_object_key
        refine ⟨?_, ?_⟩
        · rw [h1.1]
          show st1.frames = st.frames
          exact hp.1
        · rw [h1.2]
          show st1.depth = st.depth
          exact hp.2

theorem write_comment_preserves (st : WriterState) (s : String)
    (st2 : WriterState) (h : write_comment st s = .ok st2) :
    st2.frames = st.frames ∧ st2.depth = st.depth := by
  unfold write_comment at h
  by_cases hw : st.has_written_token = true
  · rw [if_pos hw] at h
    rcases hind : indent (new_line st) with e | sti
    · rw [hind] at h
      cases h
    · rw [hind] at h
      cases h
      have h1 := write_nontext_preserves sti .comment ("# " ++ s)
      have h2 := indent_preserves (new_line st) sti hind
      rw [new_line_run] at h2
      exact ⟨by rw [h1.1, h2.1], by rw [h1.2, h2.2.1]⟩
  · rw [if_neg hw] at h
    cases h
    have h1 := write_nontext_preserves st .comment ("# " ++ s)
    exact ⟨h1.1, h1.2⟩

/-- C8 (amended): `begin_array` opens an inline collection exactly when a
declared length is provided and is strictly less than 4, and a
block-style collection otherwise; closing an inline collection emits a
single trailing space followed — when the depth is still at least 0, i.e.
the collection is not the outermost one — by the closing brace; closing a
block-style collection emits a newline, decreases the indentation depth,
and emits the indent and the closing brace on its own line when the
decreased depth is at least 0 (for the outermost collection no brace is
emitted). -/
theorem begin_array_end_collection_spec (st : WriterState) :
    (∀ l : Nat, l < 4 →
      begin_array st (some l) = start_collection st .array true) ∧
    (∀ l : Nat, 4 ≤ l →
      begin_array st (some l) = start_collection st .array false) ∧
    begin_array st none = start_collection st .array false ∧
    (∀ frame rest, st.frames = frame :: rest → frame.same_line = true →
      end_collection st = .ok
        ⟨st.output ++ spanFor .text ((st.current_text ++ " ") ++
            (if 0 ≤ st.depth then "\x7d" else "")),
          rest, st.depth, "", st.started, st.has_written_token⟩) ∧
    (∀ frame rest, st.frames = frame :: rest → frame.same_line = false →
      end_collection st = .ok
        ⟨((st.output ++ (if st.current_text = "" then ""
              else spanFor .text st.current_text)) ++ "<br/>") ++
            (if 0 ≤ st.depth - 1 then
              spanFor .text
                (String.mk (List.replicate ((st.depth - 1).toNat * 4) ' ')
                  ++ "\x7d")
            else ""),
          rest, st.depth - 1, "", st.started, st.has_written_token⟩) := by
  refine ⟨?_, ?_, ?_, ?_, ?_⟩
  · intro l hl
    unfold begin_array
    rw [show ((some l).map (fun l => decide (l < 4))).getD false = true by
      simp [hl]]
  · intro l hl
    unfold begin_array
    rw [show ((some l).map (fun l => decide (l < 4))).getD false = false by
      simp; omega]
  · rfl
  · intro frame rest hfr hsl
    rw [end_collection_run st frame rest hfr, hsl]
    rfl
  · intro frame rest hfr hsl
    rw [end_collection_run st frame rest hfr, hsl]
    rfl

/-- Closed witness for the amended C8 theorem: a 2-element array nested
inside a block-style object opens inline, and closing it emits the
trailing space and the closing brace. -/
theorem begin_array_end_collection_spec_witness :
    begin_array (begin_object newWriter none) (some 2) =
      start_collection (begin_object newWriter none) .array true ∧
    end_collection (begin_array (begin_object newWriter none) (some 2)) = .ok
      ⟨(begin_array (begin_object newWriter none) (some 2)).output ++
          spanFor .text
            (((begin_array (begin_object newWriter none) (some 2)).current_text
                ++ " ") ++
              (if 0 ≤ (begin_array (begin_object newWriter none) (some 2)).depth
                then "\x7d" else "")),
        [⟨.object, false⟩],
        (begin_array (begin_object newWriter none) (some 2)).depth, "",
        (begin_array (begin_object newWriter none) (some 2)).started,
        (begin_array (begin_object newWriter none) (some 2)).has_written_token⟩ :=
  ⟨(begin_array_end_collection_spec (begin_object newWriter none)).1 2
      (by decide),
    (begin_array_end_collection_spec
        (begin_array (begin_object newWriter none) (some 2))).2.2.2.1
      ⟨.array, true⟩ [⟨.object, false⟩] (by decide) rfl⟩

/-- Counterexample to C8 as stated: closing the inline 3-element array at
the top level (depth still -1) emits the trailing space but no closing
brace at all — the final output contains no brace character. -/
theorem begin_array_end_collection_counterexample :
    end_collection (begin_array newWriter (some 3)) =
      .ok ⟨"<span class=\"pd-token-Text\"> </span>", [], -1, "", false, false⟩ ∧
    Char.ofNat 125 ∉
      ("<span class=\"pd-token-Text\"> </span>" : String).data := by
  exact ⟨by rfl, by decide⟩

/-- C9 (amended): the writer starts at depth -1 with no frames; opening a
collection buffers the opening brace exactly when the depth at open time
is at least 0, and closing one emits the closing brace exactly when the
depth after the block-style de-indent is at least 0; the depth always
equals the number of open block-style collections minus one (an invariant
every writer operation preserves), so the outermost collection is
rendered without surrounding braces and a nested collection gets braces
exactly when at least one enclosing collection is block-style — in
particular every collection nested inside a block-style collection gets
them, while a collection nested only inside inline collections does
not. -/
theorem highlighter_depth_braces (st : WriterState) :
    newWriter.depth = -1 ∧ DepthInv newWriter ∧
    (∀ c sl, (start_collection st c sl).current_text =
      st.current_text ++ (if 0 ≤ st.depth then "\x7b " else "")) ∧
    (DepthInv st → ∀ c sl, (start_collection st c sl).current_text =
      st.current_text ++
        (if st.frames.any (fun f => !f.same_line) then "\x7b " else "")) ∧
    (DepthInv st → ∀ c sl, DepthInv (start_collection st c sl)) ∧
    (DepthInv st → ∀ len, DepthInv (begin_array st len) ∧
      DepthInv (begin_object st len)) ∧
    (DepthInv st → ∀ st2, end_collection st = .ok st2 → DepthInv st2) ∧
    (DepthInv st → ∀ key st2, write_property st key = .ok st2 → DepthInv st2) ∧
    (DepthInv st → ∀ s st2, write_comment st s = .ok st2 → DepthInv st2) ∧
    (DepthInv st → ∀ tok out, DepthInv (write_nontext st tok out)) ∧
    (DepthInv st → ∀ out, DepthInv (write_text st out) ∧
      DepthInv (flush_text st) ∧ DepthInv (new_line st)) ∧
    (DepthInv st → ∀ frame rest, st.frames = frame :: rest →
      ∃ st2, end_collection st = .ok st2 ∧
        st2.output = st.output ++
          (if frame.same_line then
            spanFor .text ((st.current_text ++ " ") ++
              (if rest.any (fun f => !f.same_line) then "\x7d" else ""))
          else
            ((if st.current_text = "" then ""
                else spanFor .text st.current_text) ++ "<br/>") ++
            (if rest.any (fun f => !f.same_line) then
              spanFor .text
                (String.mk (List.replicate ((blockCount rest - 1).toNat * 4) ' ')
                  ++ "\x7d")
            else ""))) := by
  have hstart : ∀ stx : WriterState, DepthInv stx → ∀ (c : CollectionType)
      (sl : Bool), DepthInv (start_collection stx c sl) := by
    intro stx hinv c sl
    rw [DepthInv, start_collection_run]
    show (if sl then stx.depth else stx.depth + 1) =
      blockCount (⟨c, sl⟩ :: stx.frames) - 1
    rw [blockCount_cons]
    rw [DepthInv] at hinv
    cases sl with
    | true => simpa using hinv
    | false => simp [hinv]
  have hend : ∀ stx : WriterState, DepthInv stx → ∀ st2,
      end_collection stx = .ok st2 → DepthInv st2 := by
    intro stx hinv st2 h
    rcases hfr : stx.frames with _ | ⟨frame, rest⟩
    · rw [end_collection, hfr] at h
      cases h
    · rw [end_collection_run stx frame rest hfr] at h
      cases h
      rw [DepthInv] at hinv
      rw [hfr, blockCount_cons] at hinv
      obtain ⟨c, sl⟩ := frame
      cases sl with
      | true =>
        rw [DepthInv]
        simp only [if_pos]
        show stx.depth = blockCount rest - 1
        simpa using hinv
      | false =>
        rw [DepthInv]
        simp only [Bool.false_eq_true, if_false]
        show stx.depth - 1 = blockCount rest - 1
        simp at hinv
        omega
  have hnontext : ∀ stx : WriterState, DepthInv stx → ∀ tok out,
      DepthInv (write_nontext stx tok out) := by
    intro stx hinv tok out
    rw [DepthInv, write_nontext, flush_text_run]
    exact hinv
  refine ⟨rfl, by rw [DepthInv]; rfl, ?_, ?_, hstart st, ?_, hend st, ?_, ?_,
    hnontext st, ?_, ?_⟩
  · intro c sl
    rw [start_collection_run]
  · intro hinv c sl
    rw [start_collection_run]
    show st.current_text ++ (if 0 ≤ st.depth then "\x7b " else "") = _
    rw [DepthInv] at hinv
    by_cases hany : st.frames.any (fun f => !f.same_line) = true
    · have h1 : 1 ≤ blockCount st.frames := (any_block_iff st.frames).mp hany
      rw [if_pos (show (0 : Int) ≤ st.depth by omega), if_pos hany]
    · have h1 : ¬ 1 ≤ blockCount st.frames :=
        fun hc => hany ((any_block_iff st.frames).mpr hc)
      rw [if_neg (show ¬ (0 : Int) ≤ st.depth by omega), if_neg hany]
  · intro hinv len
    exact ⟨hstart st hinv CollectionType.array
        ((len.map (fun l => decide (l < 4))).getD false),
      hstart st hinv CollectionType.object false⟩
  · intro hinv key st2 h
    have hp := write_property_preserves st key st2 h
    rw [DepthInv, hp.1, hp.2]
    exact hinv
  · intro hinv s st2 h
    have hp := write_comment_preserves st s st2 h
    rw [DepthInv, hp.1, hp.2]
    exact hinv
  · intro hinv out
    refine ⟨hinv, ?_, ?_⟩
    · rw [DepthInv, flush_text_run]
      exact hinv
    · rw [DepthInv, new_line_run]
      exact hinv
  · intro hinv frame rest hfr
    obtain ⟨c, sl⟩ := frame
    rw [DepthInv, hfr, blockCount_cons] at hinv
    refine ⟨_, end_collection_run st ⟨c, sl⟩ rest hfr, ?_⟩
    cases sl with
    | true =>
      have hdep : st.depth = blockCount rest - 1 := by simpa using hinv
      simp only [if_pos]
      show st.output ++ spanFor .text ((st.current_text ++ " ") ++ _) = _
      by_cases hany : rest.any (fun f => !f.same_line) = true
      · have h1 : 1 ≤ blockCount rest := (any_block_iff rest).mp hany
        rw [if_pos (show (0 : Int) ≤ st.depth by omega), if_pos hany]
      · have h1 : ¬ 1 ≤ blockCount rest :=
          fun hc => hany ((any_block_iff rest).mpr hc)
        rw [if_neg (show ¬ (0 : Int) ≤ st.depth by omega), if_neg hany]
    | false =>
      have hdep : st.depth = blockCount rest := by
        simp at hinv
        omega
      simp only [Bool.false_eq_true, if_false]
      show ((st.output ++ _) ++ "<br/>") ++ _ = st.output ++ _
      by_cases hany : rest.any (fun f => !f.same_line) = true
      · have h1 : 1 ≤ blockCount rest := (any_block_iff rest).mp hany
        rw [if_pos (show (0 : Int) ≤ st.depth - 1 by omega), if_pos hany]
        rw [show st.depth - 1 = blockCount rest - 1 by omega]
        simp [String.append_assoc]
      · have h1 : ¬ 1 ≤ blockCount rest :=
          fun hc => hany ((any_block_iff rest).mpr hc)
        rw [if_neg (show ¬ (0 : Int) ≤ st.depth - 1 by omega), if_neg hany]
        simp [String.append_assoc]

/-- Counterexample to C9 as stated: an object nested directly inside a
top-level inline (length-2) array is opened at depth -1 and closed at
depth -1, so it is rendered entirely without braces even though it is a
nested collection — the run's final output contains neither brace. -/
theorem highlighter_depth_braces_counterexample :
    (match end_collection (begin_object (begin_array newWriter (some 2)) none)
        with
      | .error e => (.error e : Except String WriterState)
      | .ok sti => end_collection sti) =
      .ok (⟨"<br/><span class=\"pd-token-Text\"> </span>", [], -1, "",
        false, false⟩ : WriterState) ∧
    Char.ofNat 125 ∉
      ("<br/><span class=\"pd-token-Text\"> </span>" : String).data ∧
    Char.ofNat 123 ∉
      ("<br/><span class=\"pd-token-Text\"> </span>" : String).data := by
  exact ⟨by rfl, by decide, by decide⟩



theorem alistGet_modify_self {K V : Type} [DecidableEq K] (l : List (K × V))
    (k : K) (f : V → V) (w : V) (h : alistGet l k = some w) :
    alistGet (alistModify k f l) k = some (f w) := by
  induction l with
  | nil => simp [alistGet] at h
  | cons kv rest ih =>
    obtain ⟨k1, v1⟩ := kv
    by_cases hk : k1 = k
    · subst hk
      rw [alistGet, if_pos rfl] at h
      cases h
      rw [alistModify, if_pos rfl, alistGet, if_pos rfl]
    · rw [alistGet, if_neg hk] at h
      rw [alistModify, if_neg hk, alistGet, if_neg hk]
      exact ih h

theorem alistGet_append_single {K V : Type} [DecidableEq K] (l : List (K × V))
    (k : K) (v : V) (h : alistGet l k = none) :
    alistGet (l ++ [(k, v)]) k = some v := by
  induction l with
  | nil => simp [alistGet]
  | cons kv rest ih =>
    obtain ⟨k1, v1⟩ := kv
    by_cases hk : k1 = k
    · subst hk
      rw [alistGet, if_pos rfl] at h
      cases h
    · rw [alistGet, if_neg hk] at h
      rw [List.cons_append, alistGet, if_neg hk]
      exact ih h

theorem fill_from_path_canonical (p : PageM) : ∀ (cs : List String)
    (m : SiteMap),
    ∃ n, (m.fill_from_path cs p).navigate
        (cs.filter (fun s => !(strStartsWith s "index."))) = some n ∧
      n.absolute_url = setExtHtml (match p.pagination with
        | some pg => if 1 < pg.total_pages then p.page_url 1 else p.path
        | none => p.path) := by
  intro cs
  induction cs with
  | nil =>
    intro m
    refine ⟨m.leafUpdate p, ?_, ?_⟩
    · rw [List.filter_nil]
      rfl
    · obtain ⟨t, k, u, ids, pg, ch⟩ := m
      rfl
  | cons first rest ih =>
    intro m
    rw [List.filter_cons]
    by_cases hs : strStartsWith first "index." = true
    · rw [show (!(strStartsWith first "index.")) = false by rw [hs]; rfl]
      rw [if_neg Bool.false_ne_true]
      rw [SiteMap.fill_from_path, if_pos hs]
      exact ih _
    · have hs2 : strStartsWith first "index." = false := by
        cases hb : strStartsWith first "index."
        · rfl
        · exact absurd hb hs
      rw [show (!(strStartsWith first "index.")) = true by rw [hs2]; rfl]
      rw [if_pos rfl]
      rw [SiteMap.fill_from_path, if_neg (by rw [hs2]; exact Bool.false_ne_true)]
      rcases hc : alistGet (m.pushId p).children first with _ | child
      · obtain ⟨ncur, hnav, hurl⟩ := ih (SiteMap.node "" first "" [p.id] none [])
        refine ⟨ncur, ?_, hurl⟩
        rw [SiteMap.navigate]
        rw [show (SiteMap.node (m.pushId p).title (m.pushId p).key
            (m.pushId p).absolute_url (m.pushId p).page_ids (m.pushId p).page
            ((m.pushId p).children ++
              [(first, SiteMap.fill_from_path
                (SiteMap.node "" first "" [p.id] none []) rest p)])).children =
            (m.pushId p).children ++
              [(first, SiteMap.fill_from_path
                (SiteMap.node "" first "" [p.id] none []) rest p)] from rfl]
        rw [alistGet_append_single _ _ _ hc]
        exact hnav
      · obtain ⟨ncur, hnav, hurl⟩ := ih child
        refine ⟨ncur, ?_, hurl⟩
        rw [SiteMap.navigate]
        rw [show (SiteMap.node (m.pushId p).title (m.pushId p).key
            (m.pushId p).absolute_url (m.pushId p).page_ids (m.pushId p).page
            (alistModify first
              (fun _ => SiteMap.fill_from_path child rest p)
              (m.pushId p).children)).children =
            alistModify first (fun _ => SiteMap.fill_from_path child rest p)
              (m.pushId p).children from rfl]
        rw [alistGet_modify_self _ _ _ _ hc]
        exact hnav

/-- C4: in `SiteMap::fill_from_path`, a path component beginning with
`"index."` creates no child node — insertion continues on the current
node (and when it is the final component, the current node receives the
page's title and pagination and its children are untouched); and after
inserting a page, navigating the tree along the page's non-index path
components reaches a node whose canonical absolute URL is the page's own
path with the html extension when the page is not paginated or has a
single page, and page 1's URL of the page's group when it is paginated
over more than one page. -/
theorem fill_from_path_index_and_canonical (p : PageM) :
    (∀ (m : SiteMap) (first : String) (rest : List String),
      strStartsWith first "index." = true →
      m.fill_from_path (first :: rest) p = (m.pushId p).fill_from_path rest p) ∧
    (∀ (m : SiteMap) (first : String), strStartsWith first "index." = true →
      (m.fill_from_path [first] p).children = m.children ∧
      (m.fill_from_path [first] p).title = p.short_title ∧
      (m.fill_from_path [first] p).page = p.pagination) ∧
    (∀ (m : SiteMap) (cs : List String),
      ∃ n, (m.fill_from_path cs p).navigate
          (cs.filter (fun s => !(strStartsWith s "index."))) = some n ∧
        n.absolute_url = setExtHtml (match p.pagination with
          | some pg => if 1 < pg.total_pages then p.page_url 1 else p.path
          | none => p.path)) := by
  refine ⟨?_, ?_, fun m cs => fill_from_path_canonical p cs m⟩
  · intro m first rest hs
    rw [SiteMap.fill_from_path, if_pos hs]
  · intro m first hs
    rw [SiteMap.fill_from_path, if_pos hs]
    rw [SiteMap.fill_from_path]
    obtain ⟨t, k, u, ids, pg, ch⟩ := m
    exact ⟨rfl, rfl, rfl⟩

/-- Closed witness for the C4 theorem: inserting the modifiers index page
at `"modifiers/index.html"`, the `"index.html"` component creates no
child and applies the page's title and (absent) pagination to the current
node, and the node at `["modifiers"]` carries the canonical URL. -/
theorem fill_from_path_index_and_canonical_witness :
    (wRoot.fill_from_path ("index.html" :: []) wIndexPage =
      (wRoot.pushId wIndexPage).fill_from_path [] wIndexPage) ∧
    ((wRoot.fill_from_path ["index.html"] wIndexPage).children =
        wRoot.children ∧
      (wRoot.fill_from_path ["index.html"] wIndexPage).title =
        wIndexPage.short_title ∧
      (wRoot.fill_from_path ["index.html"] wIndexPage).page =
        wIndexPage.pagination) ∧
    (∃ n, ((wRoot.fill_from_path ["modifiers", "index.html"]
          wIndexPage).navigate
        (["modifiers", "index.html"].filter
          (fun s => !(strStartsWith s "index.")))) = some n ∧
      n.absolute_url = setExtHtml (match wIndexPage.pagination with
        | some pg =>
          if 1 < pg.total_pages then wIndexPage.page_url 1 else wIndexPage.path
        | none => wIndexPage.path)) :=
  ⟨(fill_from_path_index_and_canonical wIndexPage).1 wRoot "index.html" []
      (by decide),
    (fill_from_path_index_and_canonical wIndexPage).2.1 wRoot "index.html"
      (by decide),
    (fill_from_path_index_and_canonical wIndexPage).2.2 wRoot
      ["modifiers", "index.html"]⟩



theorem alistGet_modify {K V : Type} [DecidableEq K] (l : List (K × V))
    (k : K) (f : V → V) (key : K) :
    alistGet (alistModify k f l) key =
      if key = k then (alistGet l key).map f else alistGet l key := by
  induction l with
  | nil =>
    by_cases h : key = k
    · simp [alistGet, alistModify, h]
    · simp [alistGet, alistModify, h]
  | cons kv rest ih =>
    obtain ⟨k1, v1⟩ := kv
    by_cases h1 : k1 = k <;> by_cases h2 : k1 = key
    · subst h1
      subst h2
      simp [alistModify, alistGet]
    · subst h1
      have hk2 : ¬ key = k1 := fun hc => h2 hc.symm
      simp [alistModify, alistGet, h2, hk2]
    · subst h2
      simp [alistModify, alistGet, h1, fun hc : k1 = k => h1 hc]
    · have hk2 : ¬ key = k1 := fun hc => h2 hc.symm
      simp [alistModify, alistGet, h1, h2, hk2, ih]
theorem alistGet_insert_self {K V : Type} [DecidableEq K] (l : List (K × V))
    (k : K) (v : V) : alistGet (alistInsert l k v) k = some v := by
  induction l with
  | nil => simp [alistInsert, alistGet]
  | cons kv rest ih =>
    obtain ⟨k1, v1⟩ := kv
    by_cases h1 : k1 = k
    · rw [alistInsert, if_pos h1, alistGet, if_pos rfl]
    · rw [alistInsert, if_neg h1, alistGet, if_neg h1]
      exact ih
theorem alistGet_insert_ne {K V : Type} [DecidableEq K] (l : List (K × V))
    (k : K) (v : V) (key : K) (h : ¬ key = k) :
    alistGet (alistInsert l k v) key = alistGet l key := by
  induction l with
  | nil =>
    have h2 : ¬ k = key := fun hc => h hc.symm
    simp [alistInsert, alistGet, h2]
  | cons kv rest ih =>
    obtain ⟨k1, v1⟩ := kv
    by_cases h1 : k1 = k
    · subst h1
      have h2 : ¬ k1 = key := fun hc => h (hc.symm)
      rw [alistInsert, if_pos rfl, alistGet, if_neg h2, alistGet, if_neg h2]
    · rw [alistInsert, if_neg h1, alistGet, alistGet]
      by_cases h2 : k1 = key
      · rw [if_pos h2, if_pos h2]
      · rw [if_neg h2, if_neg h2]
        exact ih

theorem registerOne_categories_get (d : Dossier) (e : EntryRec) (cid : Nat) :
    alistGet (registerOne d e).categories cid =
      if cid = e.category_id then
        (alistGet d.categories cid).map
          (fun c => { c with entries := c.entries ++ [e.id] })
      else alistGet d.categories cid := by
  rw [show (registerOne d e).categories =
    alistModify e.category_id
      (fun c => { c with entries := c.entries ++ [e.id] }) d.categories
    from rfl]
  exact alistGet_modify _ _ _ _

theorem add_entries_stops :
    ∀ (es : List EntryRec) (d : Dossier) (k : Nat), k < es.length →
    (∀ j, j < k → ∀ e : EntryRec, es[j]? = some e →
      (alistGet d.categories e.category_id).isSome = true) →
    (∀ e : EntryRec, es[k]? = some e →
      alistGet d.categories e.category_id = none) →
    add_entries d es = (registerAll d (es.take k),
      some "Tried adding an entry with a category that doesn't exist?") := by
  intro es
  induction es with
  | nil =>
    intro d k hk
    simp at hk
  | cons e rest ih =>
    intro d k hk hbefore hfail
    match k with
    | 0 =>
      have h0 := hfail e (by simp)
      rw [List.take_zero]
      rw [show registerAll d [] = d from rfl]
      rw [add_entries, h0]
    | k + 1 =>
      have hsome := hbefore 0 (by omega) e (by simp)
      rcases hcat : alistGet d.categories e.category_id with _ | cat
      · rw [hcat] at hsome
        simp at hsome
      · rw [show add_entries d (e :: rest) = add_entries (registerOne d e) rest
          from by rw [add_entries, hcat]; rfl]
        rw [show (e :: rest).take (k + 1) = e :: rest.take k from rfl]
        rw [show registerAll d (e :: rest.take k) =
          registerAll (registerOne d e) (rest.take k) from rfl]
        apply ih (registerOne d e) k (by simpa using hk)
        · intro j hj e2 he2
          rw [registerOne_categories_get]
          have hj2 := hbefore (j + 1) (by omega) e2 (by simpa using he2)
          by_cases hc : e2.category_id = e.category_id
          · rw [if_pos hc]
            rcases hx : alistGet d.categories e2.category_id with _ | c2
            · rw [hx] at hj2
              simp at hj2
            · simp
          · rw [if_neg hc]
            exact hj2
        · intro e2 he2
          rw [registerOne_categories_get]
          have hf2 := hfail e2 (by simpa using he2)
          by_cases hc : e2.category_id = e.category_id
          · rw [if_pos hc, hf2]
            rfl
          · rw [if_neg hc]
            exact hf2

theorem registerAll_cross_references : ∀ (l : List EntryRec) (d : Dossier),
    (registerAll d l).cross_references = d.cross_references ++
      (l.map (fun e => e.crossRefs.map
        (fun (pr : String × Nat) => CrossReference.mk e.id pr.1 pr.2))).flatten := by
  intro l
  induction l with
  | nil =>
    intro d
    simp [registerAll]
  | cons e rest ih =>
    intro d
    rw [show registerAll d (e :: rest) = registerAll (registerOne d e) rest
      from rfl]
    rw [ih]
    rw [show (registerOne d e).cross_references = d.cross_references ++
      e.crossRefs.map (fun (pr : String × Nat) => CrossReference.mk e.id pr.1 pr.2)
      from rfl]
    simp [List.append_assoc]

theorem registerAll_entries_not_mem : ∀ (l : List EntryRec) (d : Dossier)
    (x : Nat), (∀ e ∈ l, ¬ e.id = x) →
    alistGet (registerAll d l).entries x = alistGet d.entries x := by
  intro l
  induction l with
  | nil =>
    intro d x _
    rfl
  | cons e rest ih =>
    intro d x h
    rw [show registerAll d (e :: rest) = registerAll (registerOne d e) rest
      from rfl]
    rw [ih (registerOne d e) x (fun e2 he2 => h e2 (List.mem_cons_of_mem e he2))]
    rw [show (registerOne d e).entries = alistInsert d.entries e.id e from rfl]
    exact alistGet_insert_ne d.entries e.id e x
      (fun hc => h e (List.mem_cons_self e rest) hc.symm)

theorem registerAll_entries_mem : ∀ (l : List EntryRec) (d : Dossier)
    (e : EntryRec), e ∈ l → (l.map (fun x => x.id)).Nodup →
    alistGet (registerAll d l).entries e.id = some e := by
  intro l
  induction l with
  | nil =>
    intro d e he
    simp at he
  | cons a rest ih =>
    intro d e he hnd
    rw [List.map_cons, List.nodup_cons] at hnd
    rcases List.mem_cons.mp he with h | h
    · subst h
      rw [show registerAll d (e :: rest) = registerAll (registerOne d e) rest
        from rfl]
      rw [registerAll_entries_not_mem rest (registerOne d e) e.id
        (fun e2 he2 hc => hnd.1 (hc ▸ List.mem_map_of_mem (fun x => x.id) he2))]
      rw [show (registerOne d e).entries = alistInsert d.entries e.id e from rfl]
      exact alistGet_insert_self d.entries e.id e
    · exact ih (registerOne d a) e h hnd.2

theorem registerAll_cat_mem_mono : ∀ (l : List EntryRec) (d : Dossier)
    (cid x : Nat) (c : DocCategory), alistGet d.categories cid = some c →
    x ∈ c.entries →
    ∃ c2, alistGet (registerAll d l).categories cid = some c2 ∧
      x ∈ c2.entries := by
  intro l
  induction l with
  | nil =>
    intro d cid x c hc hx
    exact ⟨c, hc, hx⟩
  | cons e rest ih =>
    intro d cid x c hc hx
    rw [show registerAll d (e :: rest) = registerAll (registerOne d e) rest
      from rfl]
    by_cases hcid : cid = e.category_id
    · refine ih (registerOne d e) cid x
        { c with entries := c.entries ++ [e.id] } ?_ ?_
      · rw [registerOne_categories_get, if_pos hcid, hc]
        rfl
      · exact List.mem_append_left _ hx
    · refine ih (registerOne d e) cid x c ?_ hx
      rw [registerOne_categories_get, if_neg hcid]
      exact hc

theorem registerAll_cat_self : ∀ (l : List EntryRec) (d : Dossier),
    (∀ (j : Nat) (e : EntryRec), l[j]? = some e →
      (alistGet d.categories e.category_id).isSome = true) →
    ∀ (j : Nat) (e : EntryRec), l[j]? = some e →
    ∃ c, alistGet (registerAll d l).categories e.category_id = some c ∧
      e.id ∈ c.entries := by
  intro l
  induction l with
  | nil =>
    intro d _ j e he
    simp at he
  | cons a rest ih =>
    intro d htot j e he
    rw [show registerAll d (a :: rest) = registerAll (registerOne d a) rest
      from rfl]
    match j with
    | 0 =>
      simp only [List.getElem?_cons_zero, Option.some.injEq] at he
      subst he
      have h0 := htot 0 a (by simp)
      rcases hc : alistGet d.categories a.category_id with _ | c
      · rw [hc] at h0
        simp at h0
      · refine registerAll_cat_mem_mono rest (registerOne d a) a.category_id a.id
          { c with entries := c.entries ++ [a.id] } ?_ ?_
        · rw [registerOne_categories_get, if_pos rfl, hc]
          rfl
        · exact List.mem_append_right _ (List.mem_singleton_self a.id)
    | j + 1 =>
      simp only [List.getElem?_cons_succ] at he
      refine ih (registerOne d a) ?_ j e he
      intro j2 e2 he2
      rw [registerOne_categories_get]
      have := htot (j2 + 1) e2 (by simpa using he2)
      by_cases hcid : e2.category_id = a.category_id
      · rw [if_pos hcid]
        rcases hx : alistGet d.categories e2.category_id with _ | c2
        · rw [hx] at this
          simp at this
        · simp
      · rw [if_neg hcid]
        exact this

/-- C10: `add_entries` is not atomic — when the k-th entry declares an
unregistered category, the loop stops with the error, every earlier entry
stays fully registered (its id appended to its category's member list,
its cross-references recorded, the entry inserted into the entry map),
and the k-th and later entries are not registered at all and record no
cross-references (the final state is exactly the registration of the
first k entries). -/
theorem add_entries_partial_registration (d : Dossier) (es : List EntryRec)
    (k : Nat) (hk : k < es.length)
    (hbefore : ∀ j, j < k → ∀ e : EntryRec, es[j]? = some e →
      (alistGet d.categories e.category_id).isSome = true)
    (hfail : ∀ e : EntryRec, es[k]? = some e →
      alistGet d.categories e.category_id = none) :
    add_entries d es = (registerAll d (es.take k),
      some "Tried adding an entry with a category that doesn't exist?") ∧
    (registerAll d (es.take k)).cross_references = d.cross_references ++
      ((es.take k).map (fun e => e.crossRefs.map
        (fun (pr : String × Nat) => CrossReference.mk e.id pr.1 pr.2))).flatten ∧
    (∀ j, j < k → ∀ e : EntryRec, es[j]? = some e →
      ∃ c, alistGet (registerAll d (es.take k)).categories e.category_id =
        some c ∧ e.id ∈ c.entries) ∧
    ((es.map (fun e => e.id)).Nodup →
      (∀ e ∈ es, alistGet d.entries e.id = none) →
      (∀ j, j < k → ∀ e : EntryRec, es[j]? = some e →
        alistGet (registerAll d (es.take k)).entries e.id = some e) ∧
      (∀ j, k ≤ j → ∀ e : EntryRec, es[j]? = some e →
        alistGet (registerAll d (es.take k)).entries e.id = none)) := by
  refine ⟨add_entries_stops es d k hk hbefore hfail,
    registerAll_cross_references (es.take k) d, ?_, ?_⟩
  · intro j hj e he
    refine registerAll_cat_self (es.take k) d ?_ j e ?_
    · intro j2 e2 he2
      have hj2 : j2 < k := by
        rcases List.getElem?_eq_some_iff.mp he2 with ⟨hlen, _⟩
        have := List.length_take_le k es
        omega
      rw [List.getElem?_take] at he2
      rw [if_pos hj2] at he2
      exact hbefore j2 hj2 e2 he2
    · rw [List.getElem?_take, if_pos hj]
      exact he
  · intro hnd hfresh
    have hndtake : ((es.take k).map (fun x => x.id)).Nodup := by
      rw [List.map_take]
      exact (List.take_sublist k (es.map (fun x => x.id))).nodup hnd
    constructor
    · intro j hj e he
      refine registerAll_entries_mem (es.take k) d e ?_ hndtake
      rw [List.mem_iff_getElem]
      rcases List.getElem?_eq_some_iff.mp he with ⟨hlen, hget⟩
      have hlt : j < (es.take k).length := by
        rw [List.length_take]
        omega
      refine ⟨j, hlt, ?_⟩
      rw [List.getElem_take]
      exact hget
    · intro j hj e he
      rcases List.getElem?_eq_some_iff.mp he with ⟨hlen, hget⟩
      rw [registerAll_entries_not_mem (es.take k) d e.id ?_]
      · exact hfresh e (hget ▸ List.getElem_mem hlen)
      · intro e2 he2 hc
        rw [List.mem_iff_getElem] at he2
        rcases he2 with ⟨i, hi, hgi⟩
        have hik : i < k := by
          have := List.length_take_le k es
          rw [List.length_take] at hi
          omega
        have hilen : i < es.length := by omega
        have hgi2 : es[i] = e2 := by
          rw [← hgi, List.getElem_take]
        have hil2 : i < (es.map (fun x => x.id)).length := by
          simpa using hilen
        have hjl2 : j < (es.map (fun x => x.id)).length := by
          simpa using hlen
        have hmapsid : (es.map (fun x => x.id))[i] =
            (es.map (fun x => x.id))[j] := by
          rw [List.getElem_map, List.getElem_map, hgi2, hget, hc]
        have := (List.Nodup.getElem_inj_iff hnd).mp hmapsid
        omega

/-- Closed witness for the C10 theorem: of three entries, the second
declares category 99 which is not registered; the first stays registered,
the second and third do not. -/
theorem add_entries_partial_registration_witness :
    add_entries dAddW wAddEntries = (registerAll dAddW (wAddEntries.take 1),
      some "Tried adding an entry with a category that doesn't exist?") ∧
    (registerAll dAddW (wAddEntries.take 1)).cross_references =
      dAddW.cross_references ++
      ((wAddEntries.take 1).map (fun e => e.crossRefs.map
        (fun (pr : String × Nat) => CrossReference.mk e.id pr.1 pr.2))).flatten ∧
    (∀ j, j < 1 → ∀ e : EntryRec, wAddEntries[j]? = some e →
      ∃ c, alistGet (registerAll dAddW (wAddEntries.take 1)).categories
        e.category_id = some c ∧ e.id ∈ c.entries) ∧
    ((wAddEntries.map (fun e => e.id)).Nodup →
      (∀ e ∈ wAddEntries, alistGet dAddW.entries e.id = none) →
      (∀ j, j < 1 → ∀ e : EntryRec, wAddEntries[j]? = some e →
        alistGet (registerAll dAddW (wAddEntries.take 1)).entries e.id =
          some e) ∧
      (∀ j, 1 ≤ j → ∀ e : EntryRec, wAddEntries[j]? = some e →
        alistGet (registerAll dAddW (wAddEntries.take 1)).entries e.id =
          none)) :=
  add_entries_partial_registration dAddW wAddEntries 1 (by decide)
    (by
      intro j hj e he
      have hj0 : j = 0 := by omega
      subst hj0
      rw [show wAddEntries[0]? =
        some ⟨301, 1, "first", [("Supported Scopes", 900)]⟩ from rfl] at he
      cases he
      decide)
    (by
      intro e he
      rw [show wAddEntries[1]? =
        some ⟨302, 99, "second", [("Mask", 901)]⟩ from rfl] at he
      cases he
      decide)

theorem alistGet_upsert_self {K V : Type} [DecidableEq K] (l : List (K × V))
    (k : K) (dflt : V) (f : V → V) :
    alistGet (alistUpsert k dflt f l) k = some (f ((alistGet l k).getD dflt)) := by
  induction l with
  | nil => simp [alistUpsert, alistGet]
  | cons kv rest ih =>
    obtain ⟨k1, v1⟩ := kv
    by_cases h1 : k1 = k
    · subst h1
      rw [alistUpsert, if_pos rfl, alistGet, if_pos rfl, alistGet, if_pos rfl]
      rfl
    · rw [alistUpsert, if_neg h1, alistGet, if_neg h1, alistGet, if_neg h1]
      exact ih

theorem alistGet_upsert_ne {K V : Type} [DecidableEq K] (l : List (K × V))
    (k : K) (dflt : V) (f : V → V) (key : K) (h : ¬ key = k) :
    alistGet (alistUpsert k dflt f l) key = alistGet l key := by
  induction l with
  | nil =>
    have h2 : ¬ k = key := fun hc => h hc.symm
    simp [alistUpsert, alistGet, h2]
  | cons kv rest ih =>
    obtain ⟨k1, v1⟩ := kv
    by_cases h1 : k1 = k
    · subst h1
      have h2 : ¬ k1 = key := fun hc => h hc.symm
      rw [alistUpsert, if_pos rfl, alistGet, if_neg h2, alistGet, if_neg h2]
    · rw [alistUpsert, if_neg h1, alistGet, alistGet]
      by_cases h2 : k1 = key
      · rw [if_pos h2, if_pos h2]
      · rw [if_neg h2, if_neg h2]
        exact ih

theorem alistGet_eq_none_iff {K V : Type} [DecidableEq K] (l : List (K × V))
    (k : K) : alistGet l k = none ↔ k ∉ l.map Prod.fst := by
  induction l with
  | nil => simp [alistGet]
  | cons kv rest ih =>
    obtain ⟨k1, v1⟩ := kv
    by_cases h1 : k1 = k
    · subst h1
      simp [alistGet]
    · rw [alistGet, if_neg h1]
      simp only [List.map_cons, List.mem_cons]
      rw [ih]
      constructor
      · intro h2 hc
        rcases hc with hc | hc
        · exact h1 hc.symm
        · exact h2 hc
      · intro h2 hc
        exact h2 (Or.inr hc)

theorem keys_upsert {K V : Type} [DecidableEq K] (l : List (K × V))
    (k : K) (dflt : V) (f : V → V) :
    (alistUpsert k dflt f l).map Prod.fst =
      if k ∈ l.map Prod.fst then l.map Prod.fst else l.map Prod.fst ++ [k] := by
  induction l with
  | nil => simp [alistUpsert]
  | cons kv rest ih =>
    obtain ⟨k1, v1⟩ := kv
    by_cases h1 : k1 = k
    · subst h1
      rw [alistUpsert, if_pos rfl]
      simp
    · rw [alistUpsert, if_neg h1]
      simp only [List.map_cons, List.mem_cons]
      rw [ih]
      by_cases h2 : k ∈ rest.map Prod.fst
      · rw [if_pos h2, if_pos (Or.inr h2)]
      · rw [if_neg h2, if_neg ?_]
        · simp
        · intro hc
          rcases hc with hc | hc
          · exact h1 hc.symm
          · exact h2 hc

theorem groupKeys_push (gs : RefGroups) (g p : String) (s : DocStringSegment) :
    groupKeys (groupsPush gs g p s) =
      if g ∈ groupKeys gs then groupKeys gs else groupKeys gs ++ [g] := by
  rw [groupsPush, groupKeys, keys_upsert]
  rfl

theorem innerOf_push_self (gs : RefGroups) (g p : String)
    (s : DocStringSegment) :
    innerOf (groupsPush gs g p s) g =
      alistUpsert p [] (fun items => items ++ [s]) (innerOf gs g) := by
  rw [innerOf, groupsPush, alistGet_upsert_self]
  rfl

theorem innerOf_push_ne (gs : RefGroups) (g p : String) (s : DocStringSegment)
    (g2 : String) (h : ¬ g2 = g) :
    innerOf (groupsPush gs g p s) g2 = innerOf gs g2 := by
  rw [innerOf, groupsPush, alistGet_upsert_ne _ _ _ _ _ h, innerOf]

theorem propKeys_push (gs : RefGroups) (g p : String) (s : DocStringSegment)
    (g2 : String) :
    propKeys (groupsPush gs g p s) g2 =
      if g2 = g then
        (if p ∈ propKeys gs g then propKeys gs g else propKeys gs g ++ [p])
      else propKeys gs g2 := by
  by_cases h : g2 = g
  · subst h
    rw [if_pos rfl, propKeys, innerOf_push_self, keys_upsert]
    rfl
  · rw [if_neg h, propKeys, innerOf_push_ne _ _ _ _ _ h, propKeys]

theorem bucketOf_push (gs : RefGroups) (g p : String) (s : DocStringSegment)
    (g2 p2 : String) :
    bucketOf (groupsPush gs g p s) g2 p2 =
      if g2 = g ∧ p2 = p then bucketOf gs g p ++ [s] else bucketOf gs g2 p2 := by
  by_cases hg : g2 = g
  · subst hg
    by_cases hp : p2 = p
    · subst hp
      rw [if_pos ⟨rfl, rfl⟩, bucketOf, innerOf_push_self,
        alistGet_upsert_self]
      rw [bucketOf]
      rfl
    · rw [if_neg (fun hc => hp hc.2), bucketOf, innerOf_push_self,
        alistGet_upsert_ne _ _ _ _ _ hp, bucketOf]
  · rw [if_neg (fun hc => hg hc.1), bucketOf, innerOf_push_ne _ _ _ _ _ hg,
      bucketOf]

theorem mem_groupKeys_buildFrom (ts : List (String × String × DocStringSegment)) :
    ∀ (gs : RefGroups) (g : String),
      g ∈ groupKeys (buildFrom gs ts) ↔
        g ∈ groupKeys gs ∨ g ∈ ts.map (fun t => t.1) := by
  induction ts with
  | nil =>
    intro gs g
    simp [buildFrom]
  | cons t rest ih =>
    intro gs g
    rw [show buildFrom gs (t :: rest) =
      buildFrom (groupsPush gs t.1 t.2.1 t.2.2) rest from rfl]
    rw [ih]
    rw [groupKeys_push]
    by_cases h : t.1 ∈ groupKeys gs
    · rw [if_pos h]
      simp only [List.map_cons, List.mem_cons]
      constructor
      · tauto
      · intro hc
        rcases hc with hc | hc | hc
        · exact Or.inl hc
        · exact Or.inl (hc ▸ h)
        · exact Or.inr hc
    · rw [if_neg h]
      simp only [List.mem_append, List.mem_singleton, List.map_cons,
        List.mem_cons]
      tauto

theorem nodup_groupKeys_buildFrom
    (ts : List (String × String × DocStringSegment)) :
    ∀ gs : RefGroups, (groupKeys gs).Nodup →
      (groupKeys (buildFrom gs ts)).Nodup := by
  induction ts with
  | nil =>
    intro gs h
    exact h
  | cons t rest ih =>
    intro gs h
    rw [show buildFrom gs (t :: rest) =
      buildFrom (groupsPush gs t.1 t.2.1 t.2.2) rest from rfl]
    refine ih _ ?_
    rw [groupKeys_push]
    by_cases hmem : t.1 ∈ groupKeys gs
    · rw [if_pos hmem]
      exact h
    · rw [if_neg hmem]
      simp [List.nodup_append, h, hmem]

theorem mem_propKeys_buildFrom
    (ts : List (String × String × DocStringSegment)) :
    ∀ (gs : RefGroups) (g p : String),
      p ∈ propKeys (buildFrom gs ts) g ↔
        p ∈ propKeys gs g ∨ ∃ t ∈ ts, t.1 = g ∧ t.2.1 = p := by
  induction ts with
  | nil =>
    intro gs g p
    simp [buildFrom]
  | cons t rest ih =>
    intro gs g p
    rw [show buildFrom gs (t :: rest) =
      buildFrom (groupsPush gs t.1 t.2.1 t.2.2) rest from rfl]
    rw [ih, propKeys_push]
    constructor
    · intro hc
      rcases hc with hc | hc
      · by_cases hg : g = t.1
        · rw [if_pos hg] at hc
          by_cases hp : t.2.1 ∈ propKeys gs t.1
          · rw [if_pos hp] at hc
            exact Or.inl (hg ▸ hc)
          · rw [if_neg hp] at hc
            rcases List.mem_append.mp hc with hc2 | hc2
            · exact Or.inl (hg ▸ hc2)
            · refine Or.inr ⟨t, List.mem_cons_self t rest, hg.symm, ?_⟩
              rw [List.mem_singleton] at hc2
              exact hc2.symm
        · rw [if_neg hg] at hc
          exact Or.inl hc
      · rcases hc with ⟨t2, ht2, h1, h2⟩
        exact Or.inr ⟨t2, List.mem_cons_of_mem t ht2, h1, h2⟩
    · intro hc
      rcases hc with hc | ⟨t2, ht2, h1, h2⟩
      · left
        by_cases hg : g = t.1
        · rw [if_pos hg]
          by_cases hp : t.2.1 ∈ propKeys gs t.1
          · rw [if_pos hp]
            exact hg ▸ hc
          · rw [if_neg hp]
            exact List.mem_append_left _ (hg ▸ hc)
        · rw [if_neg hg]
          exact hc
      · rcases List.mem_cons.mp ht2 with he | he
        · rw [he] at h1 h2
          left
          rw [if_pos h1.symm]
          rw [← h2]
          by_cases hp : t.2.1 ∈ propKeys gs t.1
          · rw [if_pos hp]
            exact hp
          · rw [if_neg hp]
            exact List.mem_append_right _ (List.mem_singleton_self _)
        · exact Or.inr ⟨t2, he, h1, h2⟩

theorem nodup_propKeys_buildFrom
    (ts : List (String × String × DocStringSegment)) :
    ∀ (gs : RefGroups), (∀ g, (propKeys gs g).Nodup) →
      ∀ g, (propKeys (buildFrom gs ts) g).Nodup := by
  induction ts with
  | nil =>
    intro gs h g
    exact h g
  | cons t rest ih =>
    intro gs h g
    rw [show buildFrom gs (t :: rest) =
      buildFrom (groupsPush gs t.1 t.2.1 t.2.2) rest from rfl]
    refine ih _ ?_ g
    intro g2
    rw [propKeys_push]
    by_cases hg : g2 = t.1
    · rw [if_pos hg]
      by_cases hp : t.2.1 ∈ propKeys gs t.1
      · rw [if_pos hp]
        exact h t.1
      · rw [if_neg hp]
        simp [List.nodup_append, h t.1, hp]
    · rw [if_neg hg]
      exact h g2

theorem bucketOf_buildFrom
    (ts : List (String × String × DocStringSegment)) :
    ∀ (gs : RefGroups) (g p : String),
      bucketOf (buildFrom gs ts) g p =
        bucketOf gs g p ++
          (ts.filter (fun t => decide (t.1 = g) && decide (t.2.1 = p))).map
            (fun t => t.2.2) := by
  induction ts with
  | nil =>
    intro gs g p
    simp [buildFrom]
  | cons t rest ih =>
    intro gs g p
    rw [show buildFrom gs (t :: rest) =
      buildFrom (groupsPush gs t.1 t.2.1 t.2.2) rest from rfl]
    rw [ih, bucketOf_push, List.filter_cons]
    by_cases hgp : t.1 = g ∧ t.2.1 = p
    · rw [if_pos ⟨hgp.1.symm, hgp.2.symm⟩]
      rw [show (decide (t.1 = g) && decide (t.2.1 = p)) = true by
        simp [hgp.1, hgp.2]]
      rw [hgp.1, hgp.2]
      simp [List.append_assoc]
    · rw [if_neg (fun hc => hgp ⟨hc.1.symm, hc.2.symm⟩)]
      rw [show (decide (t.1 = g) && decide (t.2.1 = p)) = false by
        rcases Decidable.not_and_iff_or_not.mp hgp with hc | hc <;> simp [hc]]
      simp

theorem seg_eq_of_fields (a b : DocStringSegment) (ht : a.tag = b.tag)
    (hc : a.contents = b.contents) (hu : a.url = b.url) : a = b := by
  cases a <;> cases b <;>
    simp [DocStringSegment.tag, DocStringSegment.contents,
      DocStringSegment.url] at * <;> simp [hc, hu]

instance : IsTotal DocStringSegment segLE := by
  constructor
  intro a b
  rw [segLE, segLE]
  rcases Nat.lt_trichotomy a.tag b.tag with h | h | h
  · exact Or.inl (Or.inl h)
  · rcases lt_trichotomy a.contents b.contents with h2 | h2 | h2
    · exact Or.inl (Or.inr ⟨h, Or.inl h2⟩)
    · rcases le_total a.url b.url with h3 | h3
      · exact Or.inl (Or.inr ⟨h, Or.inr ⟨h2, h3⟩⟩)
      · exact Or.inr (Or.inr ⟨h.symm, Or.inr ⟨h2.symm, h3⟩⟩)
    · exact Or.inr (Or.inr ⟨h.symm, Or.inl h2⟩)
  · exact Or.inr (Or.inl h)

instance : IsTrans DocStringSegment segLE := by
  constructor
  intro a b c hab hbc
  rw [segLE] at hab hbc ⊢
  rcases hab with h1 | ⟨h1, h1c⟩
  · rcases hbc with h2 | ⟨h2, _⟩
    · exact Or.inl (Nat.lt_trans h1 h2)
    · exact Or.inl (h2 ▸ h1)
  · rcases hbc with h2 | ⟨h2, h2c⟩
    · exact Or.inl (h1 ▸ h2)
    · refine Or.inr ⟨h1.trans h2, ?_⟩
      rcases h1c with h1c | ⟨h1e, h1u⟩
      · rcases h2c with h2c | ⟨h2e, _⟩
        · exact Or.inl (lt_trans h1c h2c)
        · exact Or.inl (h2e ▸ h1c)
      · rcases h2c with h2c | ⟨h2e, h2u⟩
        · exact Or.inl (h1e ▸ h2c)
        · exact Or.inr ⟨h1e.trans h2e, le_trans h1u h2u⟩

instance : IsAntisymm DocStringSegment segLE := by
  constructor
  intro a b hab hba
  rw [segLE] at hab hba
  have ht : a.tag = b.tag := by
    rcases hab with h1 | ⟨h1, _⟩ <;> rcases hba with h2 | ⟨h2, _⟩ <;> omega
  have hc : a.contents = b.contents := by
    rcases hab with h1 | ⟨_, h1c⟩
    · omega
    · rcases hba with h2 | ⟨_, h2c⟩
      · omega
      · rcases h1c with h1c | ⟨h1e, _⟩
        · rcases h2c with h2c | ⟨h2e, _⟩
          · exact absurd (lt_trans h1c h2c) (lt_irrefl _)
          · exact h2e.symm
        · exact h1e
  have hu : a.url = b.url := by
    rcases hab with h1 | ⟨_, h1c⟩
    · omega
    · rcases hba with h2 | ⟨_, h2c⟩
      · omega
      · rcases h1c with h1c | ⟨_, h1u⟩
        · exact absurd (hc ▸ h1c) (lt_irrefl _)
        · rcases h2c with h2c | ⟨_, h2u⟩
          · exact absurd (hc ▸ h2c) (lt_irrefl _)
          · exact le_antisymm h1u h2u
  exact seg_eq_of_fields a b ht hc hu

theorem sortStrings_eq_of_perm (l1 l2 : List String) (h : l1.Perm l2) :
    sortStrings l1 = sortStrings l2 :=
  List.eq_of_perm_of_sorted
    ((List.perm_insertionSort _ l1).trans
      (h.trans (List.perm_insertionSort _ l2).symm))
    (List.sorted_insertionSort _ l1) (List.sorted_insertionSort _ l2)

theorem sortSegs_eq_of_perm (l1 l2 : List DocStringSegment) (h : l1.Perm l2) :
    sortSegs l1 = sortSegs l2 :=
  List.eq_of_perm_of_sorted
    ((List.perm_insertionSort _ l1).trans
      (h.trans (List.perm_insertionSort _ l2).symm))
    (List.sorted_insertionSort _ l1) (List.sorted_insertionSort _ l2)

theorem sorted_filterMap_linkText (l : List DocStringSegment)
    (h : List.Sorted segLE l) :
    (l.filterMap DocStringSegment.linkText).Sorted (· ≤ ·) := by
  rw [List.Sorted, List.pairwise_filterMap]
  refine h.imp_of_mem ?_
  intro a b _ _ hab x hx y hy
  cases a with
  | text c => simp [DocStringSegment.linkText] at hx
  | link c u =>
    cases b with
    | text c2 => simp [DocStringSegment.linkText] at hy
    | link c2 u2 =>
      simp only [DocStringSegment.linkText, Option.mem_def,
        Option.some.injEq] at hx hy
      subst hx
      subst hy
      rw [segLE] at hab
      rcases hab with h1 | ⟨_, h2⟩
      · simp [DocStringSegment.tag] at h1
      · rcases h2 with h2 | ⟨h2, _⟩
        · exact le_of_lt h2
        · exact le_of_eq h2

theorem filterMap_linkText_intersperse (s : String) :
    ∀ l : List DocStringSegment,
      ((List.intersperse (DocStringSegment.text s) l).filterMap
        DocStringSegment.linkText) = l.filterMap DocStringSegment.linkText := by
  intro l
  induction l with
  | nil => rfl
  | cons a tl ih =>
    cases tl with
    | nil => rfl
    | cons b tl2 =>
      rw [List.intersperse_cons_cons]
      rcases hx : DocStringSegment.linkText a with _ | x <;>
        simp [List.filterMap_cons, hx, ih,
          show DocStringSegment.linkText (.text s) = none from rfl]

theorem foldlM_add_ref_link (d : Dossier) (context : PageContext)
    (entry : EntryRec) :
    ∀ (edges : List CrossReference) (gs : RefGroups),
      (∀ cr ∈ edges, (tripleOf d context entry cr).isSome = true) →
      List.foldlM
        (fun gs cr =>
          add_ref_link d context gs entry cr.from_id cr.from_property)
        gs edges =
        some (buildFrom gs (edges.filterMap (tripleOf d context entry))) := by
  intro edges
  induction edges with
  | nil =>
    intro gs _
    rfl
  | cons cr rest ih =>
    intro gs h
    have h0 := h cr (List.mem_cons_self cr rest)
    rcases ht : tripleOf d context entry cr with _ | t
    · rw [ht] at h0
      simp at h0
    · rw [List.foldlM_cons]
      rw [show add_ref_link d context gs entry cr.from_id cr.from_property =
        (tripleOf d context entry cr).map
          (fun t => groupsPush gs t.1 t.2.1 t.2.2) from rfl]
      rw [ht]
      simp only [Option.map_some']
      show List.foldlM
        (fun gs cr => add_ref_link d context gs entry cr.from_id cr.from_property)
        (groupsPush gs t.1 t.2.1 t.2.2) rest = _
      rw [ih _ (fun cr2 hcr2 => h cr2 (List.mem_cons_of_mem cr hcr2))]
      rw [List.filterMap_cons, ht]
      rfl

theorem collate_references_run (d : Dossier) (context : PageContext)
    (item : Nat) (entry : EntryRec)
    (hentry : alistGet d.entries item = some entry)
    (hall : ∀ cr ∈ d.cross_references.filter (fun c => c.to_id = item),
      (tripleOf d context entry cr).isSome = true) :
    collate_references d context item =
      some (assembleCollated (buildFrom []
        ((d.cross_references.filter (fun c => c.to_id = item)).filterMap
          (tripleOf d context entry)))) := by
  rw [collate_references, hentry]
  dsimp only
  rw [foldlM_add_ref_link d context entry _ [] hall]
  rfl

theorem assembleCollated_names (gs : RefGroups) :
    (assembleCollated gs).groups.map CrossReferenceGroup.name =
      sortStrings (groupKeys gs) := by
  rw [assembleCollated, List.map_map]
  rw [show (CrossReferenceGroup.name ∘ fun g =>
    (⟨g, (sortStrings (propKeys gs g)).map (fun p =>
      ⟨p, List.intersperse (DocStringSegment.text ", ")
        (sortSegs (bucketOf gs g p))⟩)⟩ : CrossReferenceGroup)) =
    fun g => g from rfl]
  rw [show ((fun (g : String) => g) = id) from rfl, List.map_id]

theorem assembleCollated_mem (gs : RefGroups) (g : CrossReferenceGroup)
    (hg : g ∈ (assembleCollated gs).groups) :
    g.name ∈ sortStrings (groupKeys gs) ∧
    g.properties = (sortStrings (propKeys gs g.name)).map (fun p =>
      ⟨p, List.intersperse (DocStringSegment.text ", ")
        (sortSegs (bucketOf gs g.name p))⟩) := by
  rw [assembleCollated] at hg
  rcases List.mem_map.mp hg with ⟨gname, hmem, heq⟩
  subst heq
  exact ⟨hmem, rfl⟩

theorem assembleCollated_prop_names (gs : RefGroups)
    (g : CrossReferenceGroup) (hg : g ∈ (assembleCollated gs).groups) :
    g.properties.map CrossReferenceSection.name =
      sortStrings (propKeys gs g.name) := by
  obtain ⟨_, hprops⟩ := assembleCollated_mem gs g hg
  rw [hprops, List.map_map]
  exact List.map_id _

theorem assemble_build_perm
    (ts1 ts2 : List (String × String × DocStringSegment))
    (hperm : ts1.Perm ts2) :
    assembleCollated (buildFrom [] ts1) = assembleCollated (buildFrom [] ts2) := by
  have hkeys : (groupKeys (buildFrom [] ts1)).Perm
      (groupKeys (buildFrom [] ts2)) := by
    refine (List.perm_ext_iff_of_nodup
      (nodup_groupKeys_buildFrom ts1 [] List.nodup_nil)
      (nodup_groupKeys_buildFrom ts2 [] List.nodup_nil)).mpr ?_
    intro g
    rw [mem_groupKeys_buildFrom ts1 [] g, mem_groupKeys_buildFrom ts2 [] g]
    simp only [show groupKeys ([] : RefGroups) = [] from rfl,
      List.not_mem_nil, false_or]
    exact (hperm.map (fun t => t.1)).mem_iff
  have hprops : ∀ g, (propKeys (buildFrom [] ts1) g).Perm
      (propKeys (buildFrom [] ts2) g) := by
    intro g
    refine (List.perm_ext_iff_of_nodup
      (nodup_propKeys_buildFrom ts1 [] (fun _ => List.nodup_nil) g)
      (nodup_propKeys_buildFrom ts2 [] (fun _ => List.nodup_nil) g)).mpr ?_
    intro p
    rw [mem_propKeys_buildFrom ts1 [] g p, mem_propKeys_buildFrom ts2 [] g p]
    simp only [show ∀ g2, propKeys ([] : RefGroups) g2 = [] from fun _ => rfl,
      List.not_mem_nil, false_or]
    constructor
    · rintro ⟨t, ht, hgp⟩
      exact ⟨t, hperm.mem_iff.mp ht, hgp⟩
    · rintro ⟨t, ht, hgp⟩
      exact ⟨t, hperm.mem_iff.mpr ht, hgp⟩
  have hbuck : ∀ g p, (bucketOf (buildFrom [] ts1) g p).Perm
      (bucketOf (buildFrom [] ts2) g p) := by
    intro g p
    rw [bucketOf_buildFrom ts1 [] g p, bucketOf_buildFrom ts2 [] g p]
    simp only [show ∀ g2 p2, bucketOf ([] : RefGroups) g2 p2 = [] from
      fun _ _ => rfl, List.nil_append]
    exact (hperm.filter _).map _
  rw [assembleCollated, assembleCollated,
    CollatedCrossReferences.mk.injEq,
    sortStrings_eq_of_perm _ _ hkeys]
  apply List.map_congr_left
  intro g _
  rw [CrossReferenceGroup.mk.injEq]
  refine ⟨rfl, ?_⟩
  rw [sortStrings_eq_of_perm _ _ (hprops g)]
  apply List.map_congr_left
  intro p _
  rw [CrossReferenceSection.mk.injEq]
  exact ⟨rfl, by rw [sortSegs_eq_of_perm _ _ (hbuck g p)]⟩

set_option maxHeartbeats 1000000 in
/-- C1: for every dossier whose target entry, cross-reference source
entries and their categories are all registered, `collate_references`
succeeds and returns groups sorted lexicographically by group name,
property sections sorted lexicographically by name inside each group,
link display texts sorted lexicographically inside each section, and the
result is unchanged under any permutation of the cross-reference list. -/
theorem collate_references_sorted_and_order_independent
    (d : Dossier) (context : PageContext) (item : Nat)
    (htarget : (alistGet d.entries item).isSome = true)
    (hsrc : ∀ cr ∈ d.cross_references,
      ((alistGet d.entries cr.from_id).bind
        (fun src => alistGet d.categories src.category_id)).isSome = true) :
    ∃ col, collate_references d context item = some col ∧
      (col.groups.map CrossReferenceGroup.name).Sorted (· ≤ ·) ∧
      (∀ g ∈ col.groups,
        (g.properties.map CrossReferenceSection.name).Sorted (· ≤ ·)) ∧
      (∀ g ∈ col.groups, ∀ sec ∈ g.properties,
        (sec.body.filterMap DocStringSegment.linkText).Sorted (· ≤ ·)) ∧
      (∀ crs2 : List CrossReference, crs2.Perm d.cross_references →
        collate_references { d with cross_references := crs2 } context item =
          some col) := by
  obtain ⟨entry, hentry⟩ := Option.isSome_iff_exists.mp htarget
  have hall : ∀ cr ∈ d.cross_references.filter (fun c => c.to_id = item),
      (tripleOf d context entry cr).isSome = true := by
    intro cr hcr
    have hb := hsrc cr (List.mem_filter.mp hcr).1
    rcases he : alistGet d.entries cr.from_id with _ | other
    · rw [he] at hb
      simp at hb
    · rw [he] at hb
      replace hb : (alistGet d.categories other.category_id).isSome = true := hb
      rcases hc : alistGet d.categories other.category_id with _ | cat
      · rw [hc] at hb
        simp at hb
      · simp [tripleOf, refLinkTriple, he, hc]
  refine ⟨assembleCollated (buildFrom []
      ((d.cross_references.filter (fun c => c.to_id = item)).filterMap
        (tripleOf d context entry))),
    collate_references_run d context item entry hentry hall, ?_, ?_, ?_, ?_⟩
  · rw [assembleCollated_names]
    exact List.sorted_insertionSort _ _
  · intro g hg
    rw [assembleCollated_prop_names _ g hg]
    exact List.sorted_insertionSort _ _
  · intro g hg sec hsec
    obtain ⟨_, hp⟩ := assembleCollated_mem _ g hg
    rw [hp] at hsec
    rcases List.mem_map.mp hsec with ⟨p, _, heq⟩
    subst heq
    dsimp only
    rw [filterMap_linkText_intersperse]
    exact sorted_filterMap_linkText _ (List.sorted_insertionSort _ _)
  · intro crs2 hp2
    have hall2 : ∀ cr ∈ crs2.filter (fun c => c.to_id = item),
        (tripleOf { d with cross_references := crs2 } context entry cr).isSome
          = true := by
      intro cr hcr
      have hm := List.mem_filter.mp hcr
      exact hall cr (List.mem_filter.mpr ⟨hp2.mem_iff.mp hm.1, hm.2⟩)
    rw [collate_references_run { d with cross_references := crs2 } context
      item entry hentry hall2]
    exact congrArg some (assemble_build_perm _ _ ((hp2.filter _).filterMap _))

/-- Witness for C1 at the concrete scrambled dossier. -/
theorem collate_references_sorted_and_order_independent_witness :
    ∃ col, collate_references dW ctxW 100 = some col ∧
      (col.groups.map CrossReferenceGroup.name).Sorted (· ≤ ·) ∧
      (∀ g ∈ col.groups,
        (g.properties.map CrossReferenceSection.name).Sorted (· ≤ ·)) ∧
      (∀ g ∈ col.groups, ∀ sec ∈ g.properties,
        (sec.body.filterMap DocStringSegment.linkText).Sorted (· ≤ ·)) ∧
      (∀ crs2 : List CrossReference, crs2.Perm dW.cross_references →
        collate_references { dW with cross_references := crs2 } ctxW 100 =
          some col) :=
  collate_references_sorted_and_order_independent dW ctxW 100 (by decide)
    (by decide)

/-- Witness for C9: at the concrete writer state holding one open
block-style object, a nested inline collection does get an opening brace
and the invariant survives. -/
theorem highlighter_depth_braces_witness :
    DepthInv (start_collection (begin_object newWriter none) .array true) ∧
    (start_collection (begin_object newWriter none) .array true).current_text =
      (begin_object newWriter none).current_text ++
        (if (begin_object newWriter none).frames.any (fun f => !f.same_line)
          then "\x7b " else "") := by
  obtain ⟨-, -, -, h4, h5, -⟩ :=
    highlighter_depth_braces (begin_object newWriter none)
  exact ⟨h5 (by rw [DepthInv]; decide) .array true,
    h4 (by rw [DepthInv]; decide) .array true⟩

end Pdxdoc
